import Mathlib

/-!
# Grid path search (`sdk/cpp/src/path_finding.cc`)

A shallow embedding of `ManhattanDistance`, `GetNeighbors` and `FindPathBFS`
together with the obstacle records of `agent/environment_info.hpp`.

Modelling conventions.

* `int` coordinates are mathematical integers: signed overflow is undefined
  behaviour in C++, so the model describes every run in which the coordinate
  arithmetic `pos.x ± 1` and `start.x - end.x` stays inside the `int` range.
* `std::span` arguments are lists.
* `GetNeighbors` returns a lazily filtered view over its own locals: the view
  refers to the array `neighbors`, and its second predicate holds a reference to
  the vector `obstacles`.  Both locals are destroyed when `GetNeighbors`
  returns, and the `for` loop of `FindPathBFS` evaluates the two predicates
  afterwards.  The language does not say what the search
  `std::ranges::find(obstacles, neighbor)` finds in a destroyed vector, so its
  outcome is a parameter `found` of `GetNeighbors` and of `FindPathBFS`:
  a statement for every `found` holds whatever these searches find.  The eight
  candidate cells are taken as the array literal lists them.  A statement
  that depends on what these searches find says so in a hypothesis on `found`:
  `Lossy` (only collected positions are found) or `LosesFirstTwo` (only
  positions held by entries after the first two are found).  Two particular reads are
  named: `intactFound`, where the vector still reads as it stood at the
  return, and `freedFound`, where its first two entries are lost.
* The view is the list of the elements it yields, in iteration order.
* `std::unordered_set` (`visited`) is a list of its elements, newest first;
  `std::unordered_map` (`parents`) is an association list, newest first.  Keys
  are compared with the structural equality of `Position`; the hash only
  affects bucket placement.
* `std::priority_queue` is library code.  It is taken as a parameter
  (`PriorityQueue`): any container with `push`, `top`/`pop` in which `top`
  is a greatest element for the comparator.  Which of several greatest elements
  is served first is left to the implementation.  `listPQ` is one executable
  implementation; `tieQueue` is another, which resolves ties differently.
* The two loops receive fuel.  `FindPathBFS` returns `none` only when fuel runs
  out; `FindPathBFS_total` shows that this never happens.
-/

namespace PathFinding

/-! ## The program -/

/-- The value type `thuai8_agent::Position<int>`. -/
structure Position where
  x : Int
  y : Int
deriving DecidableEq, Repr

/-- The record `thuai8_agent::Wall`. -/
structure Wall where
  position : Position
deriving DecidableEq, Repr

/-- The record `thuai8_agent::Fence`. -/
structure Fence where
  health : Nat
  position : Position
deriving DecidableEq, Repr

/-- The constant `kMapSize`. -/
def kMapSize : Int := 100

/-- The function `ManhattanDistance`: `std::abs(dx) + std::abs(dy)`. -/
def ManhattanDistance (start goal : Position) : Int :=
  (Int.natAbs (start.x - goal.x) : Int) + (Int.natAbs (start.y - goal.y) : Int)

/-- The function `GetNeighbors`, as the elements its returned view yields to the
loop of `FindPathBFS`: the eight surrounding cells, in the order of the array
literal, filtered first by the grid bounds and then by the second predicate,
`std::ranges::find(obstacles, neighbor) == obstacles.end()`.

The local vector `obstacles` receives the positions of the walls, then of the
fences, within Manhattan distance 2 of `pos`.  The view filters lazily and its
second predicate captures `obstacles` by reference; the vector is destroyed when
`GetNeighbors` returns, before the loop tests the first candidate.
`found pos obstacles neighbor` stands for the outcome of the search
(`true`: an element equal to `neighbor` is found, the candidate is dropped)
while the view for `pos` is iterated, `obstacles` being the contents the vector
had at the return. -/
def GetNeighbors (found : Position → List Position → Position → Bool)
    (pos : Position) (walls : List Wall) (fences : List Fence) : List Position :=
  let neighbors : List Position :=
    [⟨pos.x - 1, pos.y - 1⟩, ⟨pos.x - 1, pos.y⟩, ⟨pos.x - 1, pos.y + 1⟩,
     ⟨pos.x, pos.y - 1⟩, ⟨pos.x, pos.y + 1⟩,
     ⟨pos.x + 1, pos.y - 1⟩, ⟨pos.x + 1, pos.y⟩, ⟨pos.x + 1, pos.y + 1⟩]
  let obstacles : List Position :=
    ((walls.filter fun wall => decide (ManhattanDistance pos wall.position ≤ 2)).map
        fun wall => wall.position) ++
    ((fences.filter fun fence => decide (ManhattanDistance pos fence.position ≤ 2)).map
        fun fence => fence.position)
  (neighbors.filter fun neighbor =>
      decide (neighbor.x ≥ 0 ∧ neighbor.x < kMapSize ∧
              neighbor.y ≥ 0 ∧ neighbor.y < kMapSize)).filter
    fun neighbor => !(found pos obstacles neighbor)

/-- The comparator lambda `cmp` of `FindPathBFS`, capturing `end`. -/
def cmp (goal : Position) (lhs rhs : Position) : Bool :=
  decide (ManhattanDistance lhs goal < ManhattanDistance rhs goal)

/-- A `std::priority_queue` over `Position` for the comparator `lt`:
`pop` combines `top()` and `pop()` and is `none` exactly on an empty queue.
The element served is one that `lt` puts below no element of the queue. -/
structure PriorityQueue (lt : Position → Position → Bool) where
  σ : Type
  empty : σ
  push : σ → Position → σ
  pop : σ → Option (Position × σ)
  toList : σ → List Position
  toList_empty : toList empty = []
  toList_push : ∀ q x, (toList (push q x)).Perm (x :: toList q)
  pop_none : ∀ q, pop q = none ↔ toList q = []
  pop_some : ∀ q x q', pop q = some (x, q') → (toList q).Perm (x :: toList q')
  pop_max : ∀ q x q', pop q = some (x, q') → ∀ y ∈ toList q, lt x y = false

/-- Scan for a greatest element: keep the best so far, replace it by a later
element only when the comparator puts the best strictly below it. -/
def selectMax (lt : Position → Position → Bool) : Position → List Position → Position
  | best, [] => best
  | best, y :: ys => selectMax lt (if lt best y then y else best) ys

/-- Serve a greatest element of a list and remove one occurrence of it. -/
def listPop (lt : Position → Position → Bool) :
    List Position → Option (Position × List Position)
  | [] => none
  | x :: xs => some (selectMax lt x xs, (x :: xs).erase (selectMax lt x xs))

/-- The mutable locals of `FindPathBFS`: `frontier`, `visited`, `parents`. -/
structure SearchState (σ : Type) where
  frontier : σ
  visited : List Position
  parents : List (Position × Position)

section Search

variable {lt : Position → Position → Bool} (Q : PriorityQueue lt)
  (found : Position → List Position → Position → Bool)

/-- The body of the `for` loop over the neighbours of `current`:
skip a visited neighbour, otherwise push it, mark it and record its parent. -/
def visitNeighbor (current : Position) (st : SearchState Q.σ) (neighbor : Position) :
    SearchState Q.σ :=
  if neighbor ∈ st.visited then st
  else
    { frontier := Q.push st.frontier neighbor
      visited := neighbor :: st.visited
      parents := (neighbor, current) :: st.parents }

/-- The `for` loop over `GetNeighbors(current, walls, fences)`. -/
def expand (walls : List Wall) (fences : List Fence) (current : Position)
    (st : SearchState Q.σ) : SearchState Q.σ :=
  (GetNeighbors found current walls fences).foldl (visitNeighbor Q current) st

/-- The `while (!frontier.empty() && !is_found)` loop.  The result is the final
value of `is_found` with the final state, or `none` when the fuel is used up. -/
def searchLoop (goal : Position) (walls : List Wall) (fences : List Fence) :
    Nat → SearchState Q.σ → Option (Bool × SearchState Q.σ)
  | 0, _ => none
  | fuel + 1, st =>
    match Q.pop st.frontier with
    | none => some (false, st)
    | some (current, rest) =>
      if current = goal then some (true, { st with frontier := rest })
      else searchLoop goal walls fences fuel
             (expand Q found walls fences current { st with frontier := rest })

end Search

/-- The lookup `parents[current]`: the recorded parent, or a value-initialised
`Position` when the key is absent. -/
def lookupParent (parents : List (Position × Position)) (current : Position) : Position :=
  match parents.find? fun entry => decide (entry.1 = current) with
  | some entry => entry.2
  | none => ⟨0, 0⟩

/-- The reconstruction loop
`for (current = end; current != start; current = parents[current])`
followed by `path.push_back(start)`; `none` when the fuel is used up. -/
def walkParents (parents : List (Position × Position)) (start : Position) :
    Nat → Position → Option (List Position)
  | 0, _ => none
  | fuel + 1, current =>
    if current = start then some [start]
    else (walkParents parents start fuel (lookupParent parents current)).map
           fun path => current :: path

/-- Fuel of the main loop: one expansion per cell that can ever be pushed (the
start cell and the `kMapSize * kMapSize` cells of the grid) and one more
iteration to observe the empty frontier. -/
def searchFuel : Nat := (kMapSize * kMapSize).toNat + 2

/-- The function `FindPathBFS` (`goal` is the parameter `end`), for the priority
queue implementation `Q` and the outcomes `found` of the searches of
`obstacles` made while the views of `GetNeighbors` are iterated. -/
def FindPathBFS (found : Position → List Position → Position → Bool)
    (start goal : Position) (walls : List Wall) (fences : List Fence)
    (Q : PriorityQueue (cmp goal)) : Option (List Position) :=
  if (walls.any fun wall => decide (wall.position = goal)) ||
     (fences.any fun fence => decide (fence.position = goal)) then some []
  else
    match searchLoop Q found goal walls fences searchFuel
        { frontier := Q.push Q.empty start, visited := [start], parents := [] } with
    | none => none
    | some (false, _) => some []
    | some (true, st) => walkParents st.parents start st.visited.length goal

/-! ## An executable priority queue -/

/-- An executable priority queue: the elements in insertion order, `pop` serving
the first greatest one.  The comparator has to be irreflexive and transitive. -/
def listPQ (lt : Position → Position → Bool) (hirr : ∀ a, lt a a = false)
    (htr : ∀ a b c, lt a b = true → lt b c = true → lt a c = true) : PriorityQueue lt where
  σ := List Position
  empty := []
  push q x := q ++ [x]
  pop := listPop lt
  toList q := q
  toList_empty := rfl
  toList_push q x := by
    have h : (q ++ [x]).Perm ([x] ++ q) := List.perm_append_comm
    exact h
  pop_none q := by cases q <;> simp [listPop]
  pop_some q x q' h := by
    have hmem : ∀ (ys : List Position) (best : Position),
        selectMax lt best ys ∈ best :: ys := by
      intro ys
      induction ys with
      | nil => intro best; simp [selectMax]
      | cons y ys ih =>
        intro best
        have hrec := ih (if lt best y then y else best)
        simp only [selectMax]
        split_ifs at hrec ⊢ with hb <;>
          (simp only [List.mem_cons] at hrec ⊢; tauto)
    cases q with
    | nil => simp [listPop] at h
    | cons a as =>
      simp only [listPop, Option.some.injEq, Prod.mk.injEq] at h
      obtain ⟨rfl, rfl⟩ := h
      exact List.perm_cons_erase (hmem as a)
  pop_max q x q' h y hy := by
    have hmax : ∀ (ys : List Position) (best : Position) (seen : List Position),
        (∀ z ∈ seen, lt best z = false) →
        ∀ z ∈ seen ++ best :: ys, lt (selectMax lt best ys) z = false := by
      intro ys
      induction ys with
      | nil =>
        intro best seen hseen z hz
        simp only [List.mem_append, List.mem_cons, List.mem_nil_iff, or_false] at hz
        rcases hz with hz | rfl
        · exact hseen z hz
        · exact hirr _
      | cons y ys ih =>
        intro best seen hseen z hz
        have hz' : z ∈ (seen ++ [best]) ++ y :: ys := by simpa using hz
        have hz'' : z ∈ (seen ++ [y]) ++ best :: ys := by
          simp only [List.mem_append, List.mem_cons, List.mem_nil_iff, or_false] at hz ⊢
          tauto
        simp only [selectMax]
        by_cases hby : lt best y = true
        · rw [if_pos hby]
          refine ih y (seen ++ [best]) ?_ z hz'
          intro w hw
          simp only [List.mem_append, List.mem_cons, List.mem_nil_iff, or_false] at hw
          cases hyw : lt y w with
          | false => rfl
          | true =>
            have h1 := htr best y w hby hyw
            rcases hw with hw | rfl
            · rw [hseen w hw] at h1; exact absurd h1 (by simp)
            · rw [hirr] at h1; exact absurd h1 (by simp)
        · rw [if_neg hby]
          refine ih best (seen ++ [y]) ?_ z hz''
          intro w hw
          simp only [List.mem_append, List.mem_cons, List.mem_nil_iff, or_false] at hw
          rcases hw with hw | rfl
          · exact hseen w hw
          · simpa using hby
    cases q with
    | nil => simp at hy
    | cons a as =>
      simp only [listPop, Option.some.injEq, Prod.mk.injEq] at h
      obtain ⟨rfl, rfl⟩ := h
      exact hmax as a [] (by simp) y (by simpa using hy)

/-- The list-backed queue for the comparator of a search towards `goal`. -/
def refQueue (goal : Position) : PriorityQueue (cmp goal) :=
  listPQ (cmp goal) (fun a => by simp [cmp])
    (fun a b c h1 h2 => by simp only [cmp, decide_eq_true_eq] at *; omega)

/-! ## Vocabulary of the statements -/

/-- A cell of the grid `[0, kMapSize) × [0, kMapSize)`. -/
def inBounds (p : Position) : Prop :=
  0 ≤ p.x ∧ p.x < kMapSize ∧ 0 ≤ p.y ∧ p.y < kMapSize

instance (p : Position) : Decidable (inBounds p) := by
  unfold inBounds; infer_instance

/-- A cell that is the position of some wall or of some fence. -/
def occupied (walls : List Wall) (fences : List Fence) (p : Position) : Prop :=
  (∃ wall ∈ walls, wall.position = p) ∨ (∃ fence ∈ fences, fence.position = p)

instance (walls : List Wall) (fences : List Fence) (p : Position) :
    Decidable (occupied walls fences p) := by
  unfold occupied; infer_instance

/-- King-move neighbours: distinct cells one step apart at most on each axis. -/
def kingAdjacent (a b : Position) : Prop :=
  a ≠ b ∧ Int.natAbs (a.x - b.x) ≤ 1 ∧ Int.natAbs (a.y - b.y) ≤ 1

instance (a b : Position) : Decidable (kingAdjacent a b) := by
  unfold kingAdjacent; infer_instance


/-! ## Reads of the destroyed vector -/

/-- The contents of the local vector `obstacles` of `GetNeighbors` when the
function returns: the positions of the walls, then of the fences, within
Manhattan distance 2 of `pos`. -/
def collectObstacles (pos : Position) (walls : List Wall) (fences : List Fence) :
    List Position :=
  ((walls.filter fun wall => decide (ManhattanDistance pos wall.position ≤ 2)).map
      fun wall => wall.position) ++
  ((fences.filter fun fence => decide (ManhattanDistance pos fence.position ≤ 2)).map
      fun fence => fence.position)

/-- The search of `obstacles` when the destroyed vector still reads as it stood at
the return: a candidate is found when it is one of the collected positions. -/
def intactFound : Position → List Position → Position → Bool :=
  fun _ obstacles neighbor => decide (neighbor ∈ obstacles)

/-- The search of `obstacles` when releasing the buffer has overwritten its first
two entries (sixteen bytes, two `Position<int>`) with values that equal no
candidate, and the other entries read back: a candidate is found when it is one
of the remaining positions. -/
def freedFound : Position → List Position → Position → Bool :=
  fun _ obstacles neighbor => decide (neighbor ∈ obstacles.drop 2)

/-- A search of the destroyed vector that finds only positions that were
collected: entries may be lost, none is invented. -/
def Lossy (found : Position → List Position → Position → Bool) : Prop :=
  ∀ pos obstacles n, found pos obstacles n = true → n ∈ obstacles

/-- A search of the destroyed vector that finds only positions held by entries
after the first two: the first two entries are lost and none is invented. -/
def LosesFirstTwo (found : Position → List Position → Position → Bool) : Prop :=
  ∀ pos obstacles n, found pos obstacles n = true → n ∈ obstacles.drop 2

/-! ## Invariants of the search -/

/-- The shape of `visited` and `parents` during a search from `start`: every
cell but `start` was yielded by `GetNeighbors` for a cell marked earlier,
which is its recorded parent. -/
inductive SearchTree (found : Position → List Position → Position → Bool)
    (walls : List Wall) (fences : List Fence) (start : Position) :
    List Position → List (Position × Position) → Prop
  | root : SearchTree found walls fences start [start] []
  | grow {visited : List Position} {parents : List (Position × Position)}
      {neighbor current : Position} :
      SearchTree found walls fences start visited parents →
      neighbor ∉ visited → current ∈ visited →
      neighbor ∈ GetNeighbors found current walls fences →
      SearchTree found walls fences start (neighbor :: visited)
        ((neighbor, current) :: parents)

/-- The step relation of a path as `walkParents` produces it: each cell was
yielded by `GetNeighbors` for the cell that follows it. -/
def StepFrom (found : Position → List Position → Position → Bool)
    (walls : List Wall) (fences : List Fence) (a b : Position) : Prop :=
  a ∈ GetNeighbors found b walls fences

/-- What `walkParents` returns from a marked cell `c`: a duplicate-free list of
marked cells from `c` to `start` in which every cell was yielded for the
next one. -/
structure IsPath (found : Position → List Position → Position → Bool)
    (walls : List Wall) (fences : List Fence) (start c : Position)
    (path : List Position) : Prop where
  head : path.head? = some c
  last : path.getLast? = some start
  chain : path.Chain' (StepFrom found walls fences)
  nodup : path.Nodup

/-- How the `for` loop over the neighbours changes the state: cells are only
added, every added cell is both marked and pushed, and as many cells are pushed
as are marked. -/
structure Extends {lt : Position → Position → Bool} (Q : PriorityQueue lt)
    (st st' : SearchState Q.σ) : Prop where
  visited_mono : ∀ c ∈ st.visited, c ∈ st'.visited
  frontier_mono : ∀ c ∈ Q.toList st.frontier, c ∈ Q.toList st'.frontier
  fresh : ∀ c ∈ st'.visited, c ∈ st.visited ∨ c ∈ Q.toList st'.frontier
  stale : ∀ c ∈ Q.toList st'.frontier, c ∈ Q.toList st.frontier ∨ c ∈ st'.visited
  size : (Q.toList st'.frontier).length + st.visited.length =
    (Q.toList st.frontier).length + st'.visited.length

/-- The invariant of the `while` loop: `visited` and `parents` form a search
tree, the frontier holds marked cells only, and a marked cell that is no longer
in the frontier has been expanded: it is not the goal and all the cells
`GetNeighbors` yields for it are marked. -/
structure Inv {lt : Position → Position → Bool} (Q : PriorityQueue lt)
    (found : Position → List Position → Position → Bool) (goal : Position)
    (walls : List Wall) (fences : List Fence) (start : Position)
    (st : SearchState Q.σ) : Prop where
  tree : SearchTree found walls fences start st.visited st.parents
  frontier_visited : ∀ c ∈ Q.toList st.frontier, c ∈ st.visited
  expanded : ∀ c ∈ st.visited, c ∉ Q.toList st.frontier →
    c ≠ goal ∧ ∀ n ∈ GetNeighbors found c walls fences, n ∈ st.visited

/-! ## Concrete obstacle layouts -/

/-- A wall on each of the cells (0,k), ..., (99,k) of row `k`. -/
def rowWalls (k : Int) : List Wall :=
  (List.range 100).map fun (i : Nat) => ⟨⟨Int.ofNat i, k⟩⟩

/-- A fence on each of the cells (k,0), ..., (k,99) of column `k`. -/
def columnFences (k : Int) : List Fence :=
  (List.range 100).map fun (i : Nat) => ⟨i, ⟨k, Int.ofNat i⟩⟩

/-- A chain of cells as the reachability statement describes it: it leads from
`start` to `goal` by king moves and every cell after the first is a free cell
of the grid. -/
def IsRoute (walls : List Wall) (fences : List Fence) (start goal : Position)
    (chain : List Position) : Prop :=
  chain.head? = some start ∧ chain.getLast? = some goal ∧ chain.Chain' kingAdjacent ∧
    ∀ c ∈ chain.tail, inBounds c ∧ ¬ occupied walls fences c

/-- The cells (0,1), (1,0), (1,1) around the corner (0,0), as three walls. -/
def cornerWalls : List Wall :=
  [⟨⟨0, 1⟩⟩, ⟨⟨1, 0⟩⟩, ⟨⟨1, 1⟩⟩]

/-- The same three cells as `cornerWalls`, (1,1) listed first and three times. -/
def cornerWallsRelisted : List Wall :=
  [⟨⟨1, 1⟩⟩, ⟨⟨1, 1⟩⟩, ⟨⟨0, 1⟩⟩, ⟨⟨1, 0⟩⟩, ⟨⟨1, 1⟩⟩]

/-! ## Exact-cell neighbour generation and a tie-breaking queue -/

/-- The eight king-move offsets in the order of the array literal of
`GetNeighbors`. -/
def kingOffsets : List (Int × Int) :=
  [(-1, -1), (-1, 0), (-1, 1), (0, -1), (0, 1), (1, -1), (1, 0), (1, 1)]

/-- Neighbour generation by exact-cell occupancy, written after the statement it
is compared with: the cells `pos + offset` in the order of `kingOffsets`, kept
when they lie in the grid and their own cell is not among the positions of all
the walls and fences. -/
def GetNeighborsExact (pos : Position) (walls : List Wall) (fences : List Fence) :
    List Position :=
  ((kingOffsets.map fun d => (⟨pos.x + d.1, pos.y + d.2⟩ : Position)).filter
      fun n => decide (inBounds n)).filter
    fun n => decide (n ∉ (walls.map fun wall => wall.position) ++
      (fences.map fun fence => fence.position))

/-- A priority queue for a comparator also is one for every comparator contained
in it: an element that the finer comparator puts below no element of the queue
is put below none by the coarser one. -/
def PriorityQueue.weaken {lt lt' : Position → Position → Bool} (Q : PriorityQueue lt')
    (h : ∀ a b, lt a b = true → lt' a b = true) : PriorityQueue lt where
  σ := Q.σ
  empty := Q.empty
  push := Q.push
  pop := Q.pop
  toList := Q.toList
  toList_empty := Q.toList_empty
  toList_push := Q.toList_push
  pop_none := Q.pop_none
  pop_some := Q.pop_some
  pop_max q x q' hpop y hy := by
    have hmax := Q.pop_max q x q' hpop y hy
    cases hlt : lt x y with
    | false => rfl
    | true => rw [h x y hlt] at hmax; exact absurd hmax (by simp)

/-- The comparator `cmp goal` refined on ties: of two cells at the same Manhattan
distance from `goal`, the one with the smaller `y` is put below the other. -/
def tieCmp (goal : Position) (lhs rhs : Position) : Bool :=
  decide (ManhattanDistance lhs goal < ManhattanDistance rhs goal ∨
    (ManhattanDistance lhs goal = ManhattanDistance rhs goal ∧ lhs.y < rhs.y))

/-- The list-backed priority queue for the refined comparator `tieCmp goal`. -/
def tieListQueue (goal : Position) : PriorityQueue (tieCmp goal) :=
  listPQ (tieCmp goal) (fun a => by simp [tieCmp])
    (fun a b c h1 h2 => by simp only [tieCmp, decide_eq_true_eq] at *; omega)

/-- A priority queue for `cmp goal` that, among the cells farthest from `goal`,
serves one with the greatest `y`. -/
def tieQueue (goal : Position) : PriorityQueue (cmp goal) :=
  PriorityQueue.weaken (tieListQueue goal) (fun a b h => by
    simp only [cmp, tieCmp, decide_eq_true_eq] at *
    exact Or.inl h)

/-! ## Neighbour generation -/

theorem Position.eq_iff (a b : Position) : a = b ↔ a.x = b.x ∧ a.y = b.y := by
  cases a; cases b; simp

/-- The vector `obstacles` holds the positions of walls and fences within
Manhattan distance 2 of `pos`. -/
theorem mem_collectObstacles (pos : Position) (walls : List Wall) (fences : List Fence)
    (n : Position) :
    n ∈ collectObstacles pos walls fences ↔
      ManhattanDistance pos n ≤ 2 ∧ occupied walls fences n := by
  simp only [collectObstacles, List.mem_append, List.mem_map, List.mem_filter,
    decide_eq_true_eq, occupied]
  constructor
  · rintro (⟨w, ⟨hw, hd⟩, rfl⟩ | ⟨f, ⟨hf, hd⟩, rfl⟩)
    · exact ⟨hd, Or.inl ⟨w, hw, rfl⟩⟩
    · exact ⟨hd, Or.inr ⟨f, hf, rfl⟩⟩
  · rintro ⟨hd, ⟨w, hw, rfl⟩ | ⟨f, hf, rfl⟩⟩
    · exact Or.inl ⟨w, ⟨hw, hd⟩, rfl⟩
    · exact Or.inr ⟨f, ⟨hf, hd⟩, rfl⟩

/-- The cells `GetNeighbors` yields are the king-move neighbours of `pos` that lie
in the grid and that the search of `obstacles` does not find. -/
theorem mem_GetNeighbors (found : Position → List Position → Position → Bool)
    (pos n : Position) (walls : List Wall) (fences : List Fence) :
    n ∈ GetNeighbors found pos walls fences ↔
      kingAdjacent pos n ∧ inBounds n ∧
        found pos (collectObstacles pos walls fences) n = false := by
  obtain ⟨px, py⟩ := pos
  obtain ⟨nx, ny⟩ := n
  simp only [GetNeighbors, collectObstacles, List.mem_filter, List.mem_cons,
    List.mem_nil_iff, or_false, decide_eq_true_eq, kingAdjacent, inBounds,
    Position.mk.injEq, ne_eq, kMapSize, Bool.not_eq_true']
  constructor
  · rintro ⟨⟨hn, hb⟩, hf⟩
    exact ⟨by omega, by omega, hf⟩
  · rintro ⟨hk, hb, hf⟩
    exact ⟨⟨by omega, by omega⟩, hf⟩

variable {found : Position → List Position → Position → Bool}
  {walls : List Wall} {fences : List Fence} {start : Position}
  {lt : Position → Position → Bool}

/-! ## The search tree kept in `visited` and `parents` -/

theorem SearchTree.start_mem {v : List Position} {p : List (Position × Position)}
    (h : SearchTree found walls fences start v p) : start ∈ v := by
  induction h with
  | root => simp
  | grow _ _ _ _ ih => exact List.mem_cons_of_mem _ ih

theorem SearchTree.nodup {v : List Position} {p : List (Position × Position)}
    (h : SearchTree found walls fences start v p) : v.Nodup := by
  induction h with
  | root => simp
  | grow _ hn _ _ ih => exact List.nodup_cons.mpr ⟨hn, ih⟩

theorem SearchTree.mem_cases {v : List Position} {p : List (Position × Position)}
    (h : SearchTree found walls fences start v p) :
    ∀ c ∈ v, c = start ∨ inBounds c := by
  induction h with
  | root => intro c hc; left; simpa using hc
  | grow _ _ _ hnb ih =>
    intro c hc
    rcases List.mem_cons.mp hc with rfl | hc
    · right; exact ((mem_GetNeighbors _ _ _ _ _).mp hnb).2.1
    · exact ih c hc

/-- A duplicate-free list of cells of the grid has at most `100 * 100` entries. -/
theorem inBounds_nodup_length (l : List Position) (hnd : l.Nodup)
    (hb : ∀ c ∈ l, inBounds c) : l.length ≤ 10000 := by
  have hinj : Function.Injective (fun c : Position => (c.x, c.y)) := by
    intro a b hab
    simp only [Prod.mk.injEq] at hab
    exact (Position.eq_iff a b).mpr hab
  have hnd' : (l.map fun c : Position => (c.x, c.y)).Nodup := hnd.map hinj
  have hsub : (l.map fun c : Position => (c.x, c.y)).toFinset ⊆
      Finset.Ico (0 : Int) 100 ×ˢ Finset.Ico (0 : Int) 100 := by
    intro q hq
    simp only [List.mem_toFinset, List.mem_map] at hq
    simp only [Finset.mem_product, Finset.mem_Ico]
    obtain ⟨c, hc, hcq⟩ := hq
    have := hb c hc
    simp only [inBounds, kMapSize] at this
    rw [← hcq]
    simp only
    omega
  have hcard := Finset.card_le_card hsub
  rw [List.toFinset_card_of_nodup hnd', List.length_map, Finset.card_product,
    Int.card_Ico] at hcard
  simpa using hcard

/-- At most `100 * 100 + 1` cells are ever marked: the start cell and cells of
the grid, each once. -/
theorem SearchTree.length_le {v : List Position} {p : List (Position × Position)}
    (h : SearchTree found walls fences start v p) : v.length ≤ 10001 := by
  have h1 : (v.erase start).length ≤ 10000 := by
    apply inBounds_nodup_length _ (h.nodup.erase start)
    intro c hc
    have hne : c ≠ start := fun he => by
      rw [he] at hc; exact (List.Nodup.not_mem_erase h.nodup) hc
    rcases h.mem_cases c (List.mem_of_mem_erase hc) with he | hb
    · exact absurd he hne
    · exact hb
  rw [List.length_erase_of_mem h.start_mem] at h1
  omega

/-! ## The walk along the parent links -/

theorem lookupParent_cons_self (p : List (Position × Position)) (n cur : Position) :
    lookupParent ((n, cur) :: p) n = cur := by
  simp [lookupParent]

theorem lookupParent_cons_ne (p : List (Position × Position)) {n c : Position} (cur : Position)
    (h : c ≠ n) : lookupParent ((n, cur) :: p) c = lookupParent p c := by
  have h' : ¬ n = c := fun e => h e.symm
  simp [lookupParent, List.find?_cons, h']

theorem walkParents_succ (p : List (Position × Position)) (s : Position) :
    ∀ (fuel : Nat) (c : Position) (path : List Position),
      walkParents p s fuel c = some path → walkParents p s (fuel + 1) c = some path := by
  intro fuel
  induction fuel with
  | zero => intro c path h; simp [walkParents] at h
  | succ k ih =>
    intro c path h
    rw [walkParents] at h ⊢
    by_cases hc : c = s
    · rw [if_pos hc] at h ⊢; exact h
    · rw [if_neg hc] at h ⊢
      rw [Option.map_eq_some'] at h ⊢
      obtain ⟨rest, hrest, hpath⟩ := h
      exact ⟨rest, ih _ _ hrest, hpath⟩

theorem walkParents_cons (p : List (Position × Position)) (s n cur : Position) :
    ∀ (fuel : Nat) (c : Position) (path : List Position),
      walkParents p s fuel c = some path → (∀ a ∈ path, a ≠ n) →
      walkParents ((n, cur) :: p) s fuel c = some path := by
  intro fuel
  induction fuel with
  | zero => intro c path h; simp [walkParents] at h
  | succ k ih =>
    intro c path h hne
    rw [walkParents] at h ⊢
    by_cases hc : c = s
    · rw [if_pos hc] at h ⊢; exact h
    · rw [if_neg hc] at h ⊢
      rw [Option.map_eq_some'] at h ⊢
      obtain ⟨rest, hrest, hpath⟩ := h
      have hcn : c ≠ n := hne c (by rw [← hpath]; simp)
      refine ⟨rest, ?_, hpath⟩
      rw [lookupParent_cons_ne p cur hcn]
      exact ih _ _ hrest (fun a ha => hne a (by rw [← hpath]; exact List.mem_cons_of_mem _ ha))

/-- From every marked cell the walk along the parent links reaches `start`
within `visited.length` steps. -/
theorem SearchTree.walk {v : List Position} {p : List (Position × Position)}
    (h : SearchTree found walls fences start v p) :
    ∀ c ∈ v, ∃ path, walkParents p start v.length c = some path ∧
      IsPath found walls fences start c path ∧ ∀ a ∈ path, a ∈ v := by
  induction h with
  | root =>
    intro c hc
    have hcs : c = start := by simpa using hc
    subst hcs
    exact ⟨[c], by simp [walkParents], ⟨by simp, by simp, by simp, by simp⟩, by simp⟩
  | @grow v p n cur htree hn hcur hnb ih =>
    intro c hc
    have hns : n ≠ start := fun e => hn (e ▸ htree.start_mem)
    rcases List.mem_cons.mp hc with rfl | hcv
    · obtain ⟨rest, hwalk, hpath, hsub⟩ := ih cur hcur
      have hnrest : ∀ a ∈ rest, a ≠ c := fun a ha e => hn (e ▸ hsub a ha)
      have hwalk' := walkParents_cons p start c cur _ _ _ hwalk hnrest
      refine ⟨c :: rest, ?_, ⟨by simp, ?_, ?_, ?_⟩, ?_⟩
      · rw [List.length_cons, walkParents, if_neg hns, lookupParent_cons_self, hwalk']
        rfl
      · cases rest with
        | nil => have := hpath.head; simp at this
        | cons r rs => rw [List.getLast?_cons_cons]; exact hpath.last
      · refine List.Chain'.cons' hpath.chain ?_
        intro y hy
        rw [hpath.head] at hy
        have hy' : cur = y := by simpa using hy
        subst hy'
        exact hnb
      · exact List.nodup_cons.mpr ⟨fun hmem => hnrest c hmem rfl, hpath.nodup⟩
      · intro a ha
        rcases List.mem_cons.mp ha with rfl | ha
        · exact List.mem_cons_self _ _
        · exact List.mem_cons_of_mem _ (hsub a ha)
    · obtain ⟨path, hwalk, hpath, hsub⟩ := ih c hcv
      have hnpath : ∀ a ∈ path, a ≠ n := fun a ha e => hn (e ▸ hsub a ha)
      refine ⟨path, ?_, hpath, fun a ha => List.mem_cons_of_mem _ (hsub a ha)⟩
      rw [List.length_cons]
      exact walkParents_succ _ _ _ _ _ (walkParents_cons p start n cur _ _ _ hwalk hnpath)

/-! ## The loop over the neighbours -/

theorem Extends.refl (Q : PriorityQueue lt) (st : SearchState Q.σ) : Extends Q st st :=
  ⟨fun _ h => h, fun _ h => h, fun _ h => Or.inl h, fun _ h => Or.inl h, rfl⟩

theorem Extends.trans {Q : PriorityQueue lt} {a b c : SearchState Q.σ}
    (hab : Extends Q a b) (hbc : Extends Q b c) : Extends Q a c where
  visited_mono x hx := hbc.visited_mono x (hab.visited_mono x hx)
  frontier_mono x hx := hbc.frontier_mono x (hab.frontier_mono x hx)
  fresh x hx := by
    rcases hbc.fresh x hx with h | h
    · rcases hab.fresh x h with h' | h'
      · exact Or.inl h'
      · exact Or.inr (hbc.frontier_mono x h')
    · exact Or.inr h
  stale x hx := by
    rcases hbc.stale x hx with h | h
    · rcases hab.stale x h with h' | h'
      · exact Or.inl h'
      · exact Or.inr (hbc.visited_mono x h')
    · exact Or.inr h
  size := by
    have h1 := hab.size
    have h2 := hbc.size
    omega

theorem mem_toList_push (Q : PriorityQueue lt) (q : Q.σ) (x c : Position) :
    c ∈ Q.toList (Q.push q x) ↔ c = x ∨ c ∈ Q.toList q := by
  rw [(Q.toList_push q x).mem_iff, List.mem_cons]

theorem length_toList_push (Q : PriorityQueue lt) (q : Q.σ) (x : Position) :
    (Q.toList (Q.push q x)).length = (Q.toList q).length + 1 := by
  rw [(Q.toList_push q x).length_eq, List.length_cons]

theorem visitNeighbor_extends (Q : PriorityQueue lt) (cur n : Position)
    (st : SearchState Q.σ) : Extends Q st (visitNeighbor Q cur st n) := by
  unfold visitNeighbor
  by_cases hn : n ∈ st.visited
  · rw [if_pos hn]; exact Extends.refl Q st
  · rw [if_neg hn]
    refine ⟨?_, ?_, ?_, ?_, ?_⟩
    · intro c hc; exact List.mem_cons_of_mem _ hc
    · intro c hc; exact (mem_toList_push Q _ _ _).mpr (Or.inr hc)
    · intro c hc
      rcases List.mem_cons.mp hc with rfl | hc
      · exact Or.inr ((mem_toList_push Q _ _ _).mpr (Or.inl rfl))
      · exact Or.inl hc
    · intro c hc
      rcases (mem_toList_push Q _ _ _).mp hc with rfl | hc
      · exact Or.inr (List.mem_cons_self _ _)
      · exact Or.inl hc
    · simp only [length_toList_push, List.length_cons]; omega

theorem visitNeighbor_tree (Q : PriorityQueue lt) (cur n : Position)
    (st : SearchState Q.σ) (htree : SearchTree found walls fences start st.visited st.parents)
    (hcur : cur ∈ st.visited) (hn : n ∈ GetNeighbors found cur walls fences) :
    SearchTree found walls fences start (visitNeighbor Q cur st n).visited
      (visitNeighbor Q cur st n).parents := by
  unfold visitNeighbor
  by_cases hv : n ∈ st.visited
  · rw [if_pos hv]; exact htree
  · rw [if_neg hv]; exact SearchTree.grow htree hv hcur hn

theorem visitNeighbor_mem (Q : PriorityQueue lt) (cur n : Position)
    (st : SearchState Q.σ) : n ∈ (visitNeighbor Q cur st n).visited := by
  unfold visitNeighbor
  by_cases hv : n ∈ st.visited
  · rw [if_pos hv]; exact hv
  · rw [if_neg hv]; exact List.mem_cons_self _ _

theorem foldl_visitNeighbor (Q : PriorityQueue lt) (cur : Position) :
    ∀ (ns : List Position) (st : SearchState Q.σ),
      SearchTree found walls fences start st.visited st.parents → cur ∈ st.visited →
      (∀ n ∈ ns, n ∈ GetNeighbors found cur walls fences) →
      SearchTree found walls fences start (ns.foldl (visitNeighbor Q cur) st).visited
          (ns.foldl (visitNeighbor Q cur) st).parents ∧
        Extends Q st (ns.foldl (visitNeighbor Q cur) st) ∧
        ∀ n ∈ ns, n ∈ (ns.foldl (visitNeighbor Q cur) st).visited := by
  intro ns
  induction ns with
  | nil =>
    intro st htree _ _
    exact ⟨htree, Extends.refl Q st, fun n hn => by simp at hn⟩
  | cons n ns ih =>
    intro st htree hcur hns
    have hstep := visitNeighbor_extends Q cur n st
    have htree' := visitNeighbor_tree Q cur n st htree hcur (hns n (List.mem_cons_self _ _))
    obtain ⟨h1, h2, h3⟩ := ih (visitNeighbor Q cur st n) htree'
      (hstep.visited_mono cur hcur) (fun m hm => hns m (List.mem_cons_of_mem _ hm))
    rw [List.foldl_cons]
    refine ⟨h1, hstep.trans h2, ?_⟩
    intro m hm
    rcases List.mem_cons.mp hm with rfl | hm
    · exact h2.visited_mono m (visitNeighbor_mem Q cur m st)
    · exact h3 m hm

/-! ## The main loop -/

/-- The main loop ends before its fuel does.  It ends either with the goal
popped, hence marked, or with an empty frontier, and then the goal is not marked
while every cell that `GetNeighbors` yields for a marked cell is marked. -/
theorem searchLoop_spec (Q : PriorityQueue lt) (goal : Position) :
    ∀ (fuel : Nat) (st : SearchState Q.σ), Inv Q found goal walls fences start st →
      (10001 - st.visited.length) + (Q.toList st.frontier).length < fuel →
      ∃ isFound st', searchLoop Q found goal walls fences fuel st = some (isFound, st') ∧
        SearchTree found walls fences start st'.visited st'.parents ∧
        (isFound = true → goal ∈ st'.visited) ∧
        (isFound = false → goal ∉ st'.visited ∧
          ∀ c ∈ st'.visited, ∀ n ∈ GetNeighbors found c walls fences, n ∈ st'.visited) := by
  intro fuel
  induction fuel with
  | zero => intro st _ h; omega
  | succ k ih =>
    intro st hinv hfuel
    rw [searchLoop]
    cases hpop : Q.pop st.frontier with
    | none =>
      have hnil : Q.toList st.frontier = [] := (Q.pop_none _).mp hpop
      refine ⟨false, st, rfl, hinv.tree, by simp, fun _ => ⟨?_, ?_⟩⟩
      · intro hg
        exact (hinv.expanded goal hg (by rw [hnil]; simp)).1 rfl
      · intro c hc
        exact (hinv.expanded c hc (by rw [hnil]; simp)).2
    | some top =>
      obtain ⟨current, rest⟩ := top
      have hperm := Q.pop_some _ _ _ hpop
      simp only
      by_cases hcg : current = goal
      · rw [if_pos hcg]
        refine ⟨true, _, rfl, hinv.tree, fun _ => ?_, by simp⟩
        rw [← hcg]
        exact hinv.frontier_visited current (hperm.mem_iff.mpr (List.mem_cons_self _ _))
      · rw [if_neg hcg]
        have hcurv : current ∈ st.visited :=
          hinv.frontier_visited current (hperm.mem_iff.mpr (List.mem_cons_self _ _))
        obtain ⟨htree1, hext, hall⟩ := foldl_visitNeighbor Q current (GetNeighbors found current walls fences)
          { st with frontier := rest } hinv.tree hcurv (fun n hn => hn)
        have hinv1 : Inv Q found goal walls fences start
            (expand Q found walls fences current { st with frontier := rest }) := by
          refine ⟨htree1, ?_, ?_⟩
          · intro c hc
            rcases hext.stale c hc with h | h
            · exact hext.visited_mono c
                (hinv.frontier_visited c (hperm.mem_iff.mpr (List.mem_cons_of_mem _ h)))
            · exact h
          · intro c hc hcf
            have hcv : c ∈ st.visited := by
              rcases hext.fresh c hc with h | h
              · exact h
              · exact absurd h hcf
            have hcrest : c ∉ Q.toList rest := fun h => hcf (hext.frontier_mono c h)
            by_cases hcc : c = current
            · subst hcc
              exact ⟨hcg, hall⟩
            · have hcF : c ∉ Q.toList st.frontier := by
                intro h
                rcases List.mem_cons.mp (hperm.mem_iff.mp h) with h | h
                · exact hcc h
                · exact hcrest h
              obtain ⟨h1, h2⟩ := hinv.expanded c hcv hcF
              exact ⟨h1, fun n hn => hext.visited_mono n (h2 n hn)⟩
        apply ih _ hinv1
        have hlen := hperm.length_eq
        have hsize := hext.size
        have hb1 := htree1.length_le
        have hb0 := hinv.tree.length_le
        simp only [List.length_cons] at hlen
        simp only [expand] at hb1 ⊢
        simp only at hsize
        omega

theorem goalCheck_iff (goal : Position) (walls : List Wall) (fences : List Fence) :
    ((walls.any fun wall => decide (wall.position = goal)) ||
      (fences.any fun fence => decide (fence.position = goal))) = true ↔
      occupied walls fences goal := by
  simp [occupied]

theorem searchFuel_eq : searchFuel = 10002 := by decide

/-- The two outcomes of `FindPathBFS`, whatever the searches of the destroyed
vector find.  Either it returns the empty sequence, and then the goal is
occupied or lies outside a set of cells that holds `start` and is closed under
`GetNeighbors`; or the goal is free and it returns a duplicate-free path from
`goal` to `start` along the parent links, in which every cell was yielded by
`GetNeighbors` for the next one. -/
theorem FindPathBFS_outcome (found : Position → List Position → Position → Bool)
    (start goal : Position) (walls : List Wall) (fences : List Fence)
    (Q : PriorityQueue (cmp goal)) :
    (FindPathBFS found start goal walls fences Q = some [] ∧
      (occupied walls fences goal ∨
        ∃ V : List Position, start ∈ V ∧ goal ∉ V ∧
          ∀ c ∈ V, ∀ n ∈ GetNeighbors found c walls fences, n ∈ V)) ∨
    (∃ path, FindPathBFS found start goal walls fences Q = some path ∧
      ¬ occupied walls fences goal ∧ IsPath found walls fences start goal path) := by
  by_cases hocc : occupied walls fences goal
  · left
    refine ⟨?_, Or.inl hocc⟩
    rw [FindPathBFS, if_pos ((goalCheck_iff goal walls fences).mpr hocc)]
  · have hinit : Inv Q found goal walls fences start
        { frontier := Q.push Q.empty start, visited := [start], parents := [] } := by
      refine ⟨SearchTree.root, ?_, ?_⟩
      · intro c hc
        rcases (mem_toList_push Q _ _ _).mp hc with rfl | h
        · simp
        · rw [Q.toList_empty] at h; simp at h
      · intro c hc hcf
        have hcs : c = start := by simpa using hc
        exact absurd ((mem_toList_push Q _ _ _).mpr (Or.inl hcs)) hcf
    obtain ⟨isFound, st', hloop, htree, hfound, hnot⟩ :=
      searchLoop_spec Q goal searchFuel _ hinit (by
        simp only [length_toList_push, Q.toList_empty, searchFuel_eq, List.length_cons,
          List.length_nil]
        omega)
    have hguard : ¬ (((walls.any fun wall => decide (wall.position = goal)) ||
        (fences.any fun fence => decide (fence.position = goal))) = true) :=
      fun h => hocc ((goalCheck_iff goal walls fences).mp h)
    cases isFound with
    | false =>
      left
      obtain ⟨hg, hclosed⟩ := hnot rfl
      refine ⟨?_, Or.inr ⟨st'.visited, htree.start_mem, hg, hclosed⟩⟩
      rw [FindPathBFS, if_neg hguard, hloop]
    | true =>
      right
      obtain ⟨path, hwalk, hpath, -⟩ := htree.walk goal (hfound rfl)
      refine ⟨path, ?_, hocc, hpath⟩
      rw [FindPathBFS, if_neg hguard, hloop]
      exact hwalk

/-! ## Paths -/

theorem kingAdjacent_of_stepFrom {a b : Position} (h : StepFrom found walls fences a b) :
    kingAdjacent a b := by
  have h1 := ((mem_GetNeighbors found b a walls fences).mp h).1
  obtain ⟨hne, hx, hy⟩ := h1
  exact ⟨fun e => hne e.symm, by omega, by omega⟩

theorem chain_step_or_last {R : Position → Position → Prop} :
    ∀ (l : List Position), l.Chain' R →
      ∀ c ∈ l, l.getLast? = some c ∨ ∃ b ∈ l, R c b := by
  intro l
  induction l with
  | nil => intro _ c hc; simp at hc
  | cons a rest ih =>
    intro hchain c hc
    cases rest with
    | nil =>
      have hca : c = a := by simpa using hc
      left; simp [hca]
    | cons b rest' =>
      have hab : R a b := (List.chain'_cons.mp hchain).1
      have hrest : (b :: rest').Chain' R := (List.chain'_cons.mp hchain).2
      rcases List.mem_cons.mp hc with rfl | hc'
      · right; exact ⟨b, by simp, hab⟩
      · rcases ih hrest c hc' with h | ⟨d, hd, hcd⟩
        · left; rw [List.getLast?_cons_cons]; exact h
        · right; exact ⟨d, List.mem_cons_of_mem _ hd, hcd⟩

theorem IsPath.nonempty {goal : Position} {path : List Position}
    (h : IsPath found walls fences start goal path) : path ≠ [] := by
  intro hnil
  have := h.head
  rw [hnil] at this
  simp at this

/-- Every cell of a path other than `start` passed the bounds filter. -/
theorem IsPath.generated {goal : Position} {path : List Position}
    (h : IsPath found walls fences start goal path) :
    ∀ c ∈ path, c ≠ start → inBounds c := by
  intro c hc hne
  rcases chain_step_or_last path h.chain c hc with hl | ⟨b, _, hb⟩
  · rw [h.last] at hl
    exact absurd (Option.some.inj hl).symm hne
  · exact ((mem_GetNeighbors found b c walls fences).mp hb).2.1

theorem chain_propagate {R : Position → Position → Prop} (P : Position → Prop)
    (s : Position) (hs : P s) (hstep : ∀ a b, P b → R a b → P a) :
    ∀ (l : List Position), l.Chain' R → l.getLast? = some s → ∀ c ∈ l, P c := by
  intro l
  induction l with
  | nil => intro _ _ c hc; simp at hc
  | cons a rest ih =>
    intro hchain hlast c hc
    cases rest with
    | nil =>
      have hca : c = a := by simpa using hc
      have has : a = s := by simpa using hlast
      rw [hca, has]; exact hs
    | cons b rest' =>
      have hab : R a b := (List.chain'_cons.mp hchain).1
      have hrest : (b :: rest').Chain' R := (List.chain'_cons.mp hchain).2
      rw [List.getLast?_cons_cons] at hlast
      have hall := ih hrest hlast
      rcases List.mem_cons.mp hc with rfl | hc'
      · exact hstep _ _ (hall b (by simp)) hab
      · exact hall c hc'

/-- Propagation along a path from its last cell towards its head, the step being
available for the cells of the path. -/
theorem chain_propagate_mem {R : Position → Position → Prop} (P : Position → Prop)
    (s : Position) (hs : P s) :
    ∀ (l : List Position), (∀ a b, a ∈ l → P b → R a b → P a) →
      l.Chain' R → l.getLast? = some s → ∀ c ∈ l, P c := by
  intro l
  induction l with
  | nil => intro _ _ _ c hc; simp at hc
  | cons a rest ih =>
    intro hstep hchain hlast c hc
    cases rest with
    | nil =>
      have hca : c = a := by simpa using hc
      have has : a = s := by simpa using hlast
      rw [hca, has]; exact hs
    | cons b rest' =>
      have hab : R a b := (List.chain'_cons.mp hchain).1
      have hrest : (b :: rest').Chain' R := (List.chain'_cons.mp hchain).2
      rw [List.getLast?_cons_cons] at hlast
      have hall := ih (fun x y hx => hstep x y (List.mem_cons_of_mem _ hx)) hrest hlast
      rcases List.mem_cons.mp hc with rfl | hc'
      · exact hstep _ _ (List.mem_cons_self _ _) (hall b (by simp)) hab
      · exact hall c hc'

theorem chain_before_last {R : Position → Position → Prop} (s : Position) :
    ∀ (l : List Position) (g : Position), l.Chain' R → l.head? = some g →
      l.getLast? = some s → g ≠ s → ∃ c ∈ l, R c s := by
  intro l
  induction l with
  | nil => intro g _ hh; simp at hh
  | cons a rest ih =>
    intro g hchain hhead hlast hne
    cases rest with
    | nil =>
      have h1 : a = g := by simpa using hhead
      have h2 : a = s := by simpa using hlast
      exact absurd (h1.symm.trans h2) hne
    | cons b rest' =>
      have hab : R a b := (List.chain'_cons.mp hchain).1
      have hrest : (b :: rest').Chain' R := (List.chain'_cons.mp hchain).2
      rw [List.getLast?_cons_cons] at hlast
      by_cases hbs : b = s
      · exact ⟨a, by simp, hbs ▸ hab⟩
      · obtain ⟨c, hc, hcs⟩ := ih b hrest (by simp) hlast hbs
        exact ⟨c, List.mem_cons_of_mem _ hc, hcs⟩

theorem nodup_dropLast_ne {s : Position} :
    ∀ (l : List Position), l.Nodup → l.getLast? = some s → ∀ c ∈ l.dropLast, c ≠ s := by
  intro l hnd hlast c hc hcs
  obtain ⟨ys, rfl⟩ := List.getLast?_eq_some_iff.mp hlast
  rw [List.dropLast_concat] at hc
  rw [List.nodup_append] at hnd
  exact hnd.2.2 hc (by simp [hcs])

/-! ## Particular searches -/

theorem FindPathBFS_self (p : Position) (walls : List Wall) (fences : List Fence)
    (Q : PriorityQueue (cmp p)) (hfree : ¬ occupied walls fences p) :
    FindPathBFS found p p walls fences Q = some [p] := by
  have hguard : ¬ (((walls.any fun wall => decide (wall.position = p)) ||
      (fences.any fun fence => decide (fence.position = p))) = true) :=
    fun h => hfree ((goalCheck_iff p walls fences).mp h)
  rw [FindPathBFS, if_neg hguard, searchFuel_eq, searchLoop]
  cases hpop : Q.pop (Q.push Q.empty p) with
  | none =>
    have h1 := (Q.pop_none _).mp hpop
    have h2 := length_toList_push Q Q.empty p
    rw [h1] at h2
    simp at h2
  | some top =>
    obtain ⟨current, rest⟩ := top
    have hperm := Q.pop_some _ _ _ hpop
    have hmem : current ∈ Q.toList (Q.push Q.empty p) :=
      hperm.mem_iff.mpr (List.mem_cons_self _ _)
    have hcur : current = p := by
      rcases (mem_toList_push Q _ _ _).mp hmem with h | h
      · exact h
      · rw [Q.toList_empty] at h; simp at h
    simp only [hcur, if_true, List.length_singleton, walkParents]

/-- A property that holds for `start`, fails for `goal` and is passed on by
`GetNeighbors` makes the search fail. -/
theorem FindPathBFS_separated (start goal : Position) (walls : List Wall)
    (fences : List Fence) (Q : PriorityQueue (cmp goal)) (P : Position → Prop)
    (hs : P start) (hg : ¬ P goal)
    (hstep : ∀ a b, P b → a ∈ GetNeighbors found b walls fences → P a) :
    FindPathBFS found start goal walls fences Q = some [] := by
  rcases FindPathBFS_outcome found start goal walls fences Q with ⟨h, -⟩ | ⟨path, -, -, hp⟩
  · exact h
  · have hall := chain_propagate (R := StepFrom found walls fences) P start hs hstep path
      hp.chain hp.last
    exact absurd (hall goal (List.mem_of_mem_head? hp.head)) hg

/-- The fuel never runs out: `FindPathBFS` returns a sequence on every input. -/
theorem FindPathBFS_total (found : Position → List Position → Position → Bool)
    (start goal : Position) (walls : List Wall) (fences : List Fence)
    (Q : PriorityQueue (cmp goal)) :
    ∃ path, FindPathBFS found start goal walls fences Q = some path := by
  rcases FindPathBFS_outcome found start goal walls fences Q with ⟨h, -⟩ | ⟨path, h, -⟩
  · exact ⟨[], h⟩
  · exact ⟨path, h⟩

/-! ## Induction over the iterations of the main loop -/

theorem Inv.init (Q : PriorityQueue lt)
    (found : Position → List Position → Position → Bool) (goal : Position)
    (walls : List Wall) (fences : List Fence) (start : Position) :
    Inv Q found goal walls fences start
      { frontier := Q.push Q.empty start, visited := [start], parents := [] } := by
  refine ⟨SearchTree.root, ?_, ?_⟩
  · intro c hc
    rcases (mem_toList_push Q _ _ _).mp hc with rfl | h
    · simp
    · rw [Q.toList_empty] at h; simp at h
  · intro c hc hcf
    have hcs : c = start := by simpa using hc
    exact absurd ((mem_toList_push Q _ _ _).mpr (Or.inl hcs)) hcf

theorem Inv.step {Q : PriorityQueue lt} {goal : Position} {st : SearchState Q.σ}
    (hinv : Inv Q found goal walls fences start st) {current : Position} {rest : Q.σ}
    (hpop : Q.pop st.frontier = some (current, rest)) (hcg : current ≠ goal) :
    Inv Q found goal walls fences start
      (expand Q found walls fences current { st with frontier := rest }) := by
  have hperm := Q.pop_some _ _ _ hpop
  have hcurv : current ∈ st.visited :=
    hinv.frontier_visited current (hperm.mem_iff.mpr (List.mem_cons_self _ _))
  obtain ⟨htree1, hext, hall⟩ := foldl_visitNeighbor Q current
    (GetNeighbors found current walls fences) { st with frontier := rest } hinv.tree hcurv
    (fun n hn => hn)
  refine ⟨htree1, ?_, ?_⟩
  · intro c hc
    rcases hext.stale c hc with h | h
    · exact hext.visited_mono c
        (hinv.frontier_visited c (hperm.mem_iff.mpr (List.mem_cons_of_mem _ h)))
    · exact h
  · intro c hc hcf
    have hcv : c ∈ st.visited := by
      rcases hext.fresh c hc with h | h
      · exact h
      · exact absurd h hcf
    have hcrest : c ∉ Q.toList rest := fun h => hcf (hext.frontier_mono c h)
    by_cases hcc : c = current
    · subst hcc
      exact ⟨hcg, hall⟩
    · have hcF : c ∉ Q.toList st.frontier := by
        intro h
        rcases List.mem_cons.mp (hperm.mem_iff.mp h) with h | h
        · exact hcc h
        · exact hcrest h
      obtain ⟨h1, h2⟩ := hinv.expanded c hcv hcF
      exact ⟨h1, fun n hn => hext.visited_mono n (h2 n hn)⟩

/-- Induction over the iterations of the main loop: a property of the state that
holds at the start and is kept by every expansion holds for the state in which
the loop ends, up to the frontier entry removed by the last pop. -/
theorem searchLoop_induct (Q : PriorityQueue lt) (goal : Position)
    (J : List Position → List (Position × Position) → Prop)
    (hstep : ∀ (st : SearchState Q.σ) (current : Position) (rest : Q.σ),
      Inv Q found goal walls fences start st → J st.visited st.parents →
      Q.pop st.frontier = some (current, rest) → current ≠ goal →
      J (expand Q found walls fences current { st with frontier := rest }).visited
        (expand Q found walls fences current { st with frontier := rest }).parents) :
    ∀ (fuel : Nat) (st : SearchState Q.σ) (isFound : Bool) (st' : SearchState Q.σ),
      Inv Q found goal walls fences start st → J st.visited st.parents →
      searchLoop Q found goal walls fences fuel st = some (isFound, st') →
      J st'.visited st'.parents := by
  intro fuel
  induction fuel with
  | zero => intro st isFound st' _ _ h; simp [searchLoop] at h
  | succ k ih =>
    intro st isFound st' hinv hJ h
    rw [searchLoop] at h
    cases hpop : Q.pop st.frontier with
    | none =>
      rw [hpop] at h
      simp only [Option.some.injEq, Prod.mk.injEq] at h
      rw [← h.2]; exact hJ
    | some top =>
      obtain ⟨current, rest⟩ := top
      rw [hpop] at h
      simp only at h
      by_cases hcg : current = goal
      · rw [if_pos hcg] at h
        simp only [Option.some.injEq, Prod.mk.injEq] at h
        rw [← h.2]; exact hJ
      · rw [if_neg hcg] at h
        exact ih _ isFound st' (hinv.step hpop hcg) (hstep st current rest hinv hJ hpop hcg) h

/-! ## The order of expansion -/

theorem pop_singleton (Q : PriorityQueue lt) (s : Position) :
    ∃ rest, Q.pop (Q.push Q.empty s) = some (s, rest) ∧ Q.toList rest = [] := by
  cases hpop : Q.pop (Q.push Q.empty s) with
  | none =>
    have h1 := (Q.pop_none _).mp hpop
    have h2 := length_toList_push Q Q.empty s
    rw [h1] at h2
    simp at h2
  | some top =>
    obtain ⟨current, rest⟩ := top
    have hperm := Q.pop_some _ _ _ hpop
    have hlen := hperm.length_eq
    rw [length_toList_push, Q.toList_empty] at hlen
    have hmem : current ∈ Q.toList (Q.push Q.empty s) :=
      hperm.mem_iff.mpr (List.mem_cons_self _ _)
    have hcur : current = s := by
      rcases (mem_toList_push Q _ _ _).mp hmem with h | h
      · exact h
      · rw [Q.toList_empty] at h; simp at h
    refine ⟨rest, by rw [hcur], ?_⟩
    simp only [List.length_nil, List.length_cons, zero_add, self_eq_add_left] at hlen
    exact List.length_eq_zero.mp hlen

theorem pop_farthest {goal : Position} (Q : PriorityQueue (cmp goal)) {q q' : Q.σ}
    {x : Position} (hpop : Q.pop q = some (x, q')) :
    ∀ y ∈ Q.toList q, ManhattanDistance y goal ≤ ManhattanDistance x goal := by
  intro y hy
  have h := Q.pop_max q x q' hpop y hy
  simp only [cmp, decide_eq_false_iff_not, not_lt] at h
  exact h

/-! ## Reads that invent no entry -/

theorem LosesFirstTwo.lossy (h : LosesFirstTwo found) : Lossy found :=
  fun pos obstacles n hf => List.mem_of_mem_drop (h pos obstacles n hf)

theorem intactFound_lossy : Lossy intactFound := by
  intro pos obstacles n h
  simpa [intactFound] using h

theorem freedFound_losesFirstTwo : LosesFirstTwo freedFound := by
  intro pos obstacles n h
  simpa [freedFound] using h

/-- A candidate that is no obstacle is yielded when the search of the destroyed
vector invents no entry. -/
theorem mem_GetNeighbors_of_free (hl : Lossy found) {pos n : Position}
    (hk : kingAdjacent pos n) (hb : inBounds n) (hfree : ¬ occupied walls fences n) :
    n ∈ GetNeighbors found pos walls fences := by
  refine (mem_GetNeighbors found pos n walls fences).mpr ⟨hk, hb, ?_⟩
  cases hf : found pos (collectObstacles pos walls fences) n with
  | false => rfl
  | true =>
    exact absurd ((mem_collectObstacles pos walls fences n).mp (hl _ _ _ hf)).2 hfree

/-- A candidate is yielded when at most two obstacles were collected and the
search of the destroyed vector never finds the first two. -/
theorem mem_GetNeighbors_of_lost (h2 : LosesFirstTwo found) {pos n : Position}
    (hk : kingAdjacent pos n) (hb : inBounds n)
    (hfew : (collectObstacles pos walls fences).drop 2 = []) :
    n ∈ GetNeighbors found pos walls fences := by
  refine (mem_GetNeighbors found pos n walls fences).mpr ⟨hk, hb, ?_⟩
  cases hf : found pos (collectObstacles pos walls fences) n with
  | false => rfl
  | true =>
    have := h2 _ _ _ hf
    rw [hfew] at this
    simp at this

/-- Without walls and fences the vector is empty, and a search that invents no
entry finds nothing in it: the view yields every candidate of the grid. -/
theorem GetNeighbors_open (hl : Lossy found) (pos : Position) :
    GetNeighbors found pos [] [] = GetNeighbors intactFound pos [] [] := by
  rw [GetNeighbors, GetNeighbors]
  apply List.filter_congr
  intro n _
  have h1 : found pos [] n = false := by
    cases hf : found pos [] n with
    | false => rfl
    | true => exact absurd (hl _ _ _ hf) (by simp)
  simp [h1, intactFound]

/-- The king-move neighbours of the corner (0,0) in the grid. -/
theorem corner_neighbors {a : Position} (hk : kingAdjacent ⟨0, 0⟩ a) (hb : inBounds a) :
    a = ⟨0, 1⟩ ∨ a = ⟨1, 0⟩ ∨ a = ⟨1, 1⟩ := by
  obtain ⟨ax, ay⟩ := a
  simp only [kingAdjacent, inBounds, kMapSize, ne_eq, Position.mk.injEq] at hk hb ⊢
  omega

/-! ## The parent of a cell -/

theorem foldl_visitNeighbor_added (Q : PriorityQueue lt) (cur : Position) :
    ∀ (ns : List Position) (st : SearchState Q.σ),
      ∃ added : List Position,
        (ns.foldl (visitNeighbor Q cur) st).visited = added ++ st.visited ∧
        (ns.foldl (visitNeighbor Q cur) st).parents =
          (added.map fun n => (n, cur)) ++ st.parents ∧
        ∀ n ∈ added, n ∉ st.visited := by
  intro ns
  induction ns with
  | nil => intro st; exact ⟨[], rfl, rfl, fun n hn => by simp at hn⟩
  | cons n ns ih =>
    intro st
    rw [List.foldl_cons]
    by_cases hn : n ∈ st.visited
    · have hst : visitNeighbor Q cur st n = st := by rw [visitNeighbor, if_pos hn]
      rw [hst]; exact ih st
    · obtain ⟨added, hv, hp, hfresh⟩ := ih (visitNeighbor Q cur st n)
      have hv1 : (visitNeighbor Q cur st n).visited = n :: st.visited := by
        rw [visitNeighbor, if_neg hn]
      have hp1 : (visitNeighbor Q cur st n).parents = (n, cur) :: st.parents := by
        rw [visitNeighbor, if_neg hn]
      refine ⟨added ++ [n], ?_, ?_, ?_⟩
      · rw [hv, hv1]; simp
      · rw [hp, hp1]; simp
      · intro m hm
        rcases List.mem_append.mp hm with h | h
        · intro hmv
          exact hfresh m h (by rw [hv1]; exact List.mem_cons_of_mem _ hmv)
        · have : m = n := by simpa using h
          rw [this]; exact hn

theorem lookupParent_added_mem (p : List (Position × Position)) (cur : Position) :
    ∀ (added : List Position) (c : Position), c ∈ added →
      lookupParent ((added.map fun n => (n, cur)) ++ p) c = cur := by
  intro added
  induction added with
  | nil => intro c hc; simp at hc
  | cons a as ih =>
    intro c hc
    rw [List.map_cons, List.cons_append]
    by_cases hca : c = a
    · rw [hca]; exact lookupParent_cons_self _ _ _
    · rw [lookupParent_cons_ne _ cur hca]
      exact ih c ((List.mem_cons.mp hc).resolve_left hca)

theorem lookupParent_added_not_mem (p : List (Position × Position)) (cur : Position) :
    ∀ (added : List Position) (c : Position), c ∉ added →
      lookupParent ((added.map fun n => (n, cur)) ++ p) c = lookupParent p c := by
  intro added
  induction added with
  | nil => intro c _; rfl
  | cons a as ih =>
    intro c hc
    rw [List.map_cons, List.cons_append]
    have hca : c ≠ a := fun e => hc (by rw [e]; exact List.mem_cons_self _ _)
    rw [lookupParent_cons_ne _ cur hca]
    exact ih c (fun h => hc (List.mem_cons_of_mem _ h))

theorem walkParents_head (p : List (Position × Position)) (s : Position) :
    ∀ (fuel : Nat) (c : Position) (path : List Position),
      walkParents p s fuel c = some path → path.head? = some c := by
  intro fuel c path h
  cases fuel with
  | zero => simp [walkParents] at h
  | succ k =>
    rw [walkParents] at h
    by_cases hc : c = s
    · rw [if_pos hc] at h
      simp only [Option.some.injEq] at h
      rw [← h, hc]; rfl
    · rw [if_neg hc, Option.map_eq_some'] at h
      obtain ⟨rest, -, hpath⟩ := h
      rw [← hpath]; rfl

/-- A goal that `GetNeighbors` yields for `start` is marked in the first iteration
with `start` as its parent, and no later iteration changes the parent of a
marked cell: the search returns `goal`, `start`. -/
theorem FindPathBFS_adjacent (found : Position → List Position → Position → Bool)
    (start goal : Position) (walls : List Wall) (fences : List Fence)
    (Q : PriorityQueue (cmp goal)) (hfree : ¬ occupied walls fences goal)
    (hne : goal ≠ start) (hnb : goal ∈ GetNeighbors found start walls fences) :
    FindPathBFS found start goal walls fences Q = some [goal, start] := by
  have hguard : ¬ (((walls.any fun wall => decide (wall.position = goal)) ||
      (fences.any fun fence => decide (fence.position = goal))) = true) :=
    fun h => hfree ((goalCheck_iff goal walls fences).mp h)
  obtain ⟨rest, hpop, hrest⟩ := pop_singleton Q start
  have hinv1 := (Inv.init Q found goal walls fences start).step hpop (Ne.symm hne)
  obtain ⟨added, hv, hp, hfresh⟩ := foldl_visitNeighbor_added Q start
    (GetNeighbors found start walls fences)
    { frontier := rest, visited := [start], parents := [] }
  obtain ⟨-, hext, hall⟩ := foldl_visitNeighbor Q start
    (GetNeighbors found start walls fences)
    { frontier := rest, visited := [start], parents := [] }
    (SearchTree.root : SearchTree found walls fences start [start] []) (by simp)
    (fun n hn => hn)
  have hgv := hall goal hnb
  have hga : goal ∈ added := by
    rw [hv] at hgv
    rcases List.mem_append.mp hgv with h | h
    · exact h
    · exact absurd (by simpa using h) hne
  have hJ1 : goal ∈ (expand Q found walls fences start
        { frontier := rest, visited := [start], parents := [] }).visited ∧
      lookupParent (expand Q found walls fences start
        { frontier := rest, visited := [start], parents := [] }).parents goal = start := by
    refine ⟨hgv, ?_⟩
    rw [expand, hp]
    exact lookupParent_added_mem _ _ _ _ hga
  obtain ⟨isFound, st', hloop, htree, -, hnot⟩ :=
    searchLoop_spec Q goal 10001 _ hinv1 (by
      have hsize := hext.size
      have hb1 := hinv1.tree.length_le
      simp only [expand, hrest, List.length_nil, List.length_cons] at hsize hb1 ⊢
      omega)
  have hJ := searchLoop_induct Q goal
    (fun v p => goal ∈ v ∧ lookupParent p goal = start)
    (fun st current rest' _ hJ _ _ => by
      obtain ⟨added', hv', hp', hfresh'⟩ := foldl_visitNeighbor_added Q current
        (GetNeighbors found current walls fences) { st with frontier := rest' }
      rw [expand, hv', hp']
      refine ⟨List.mem_append_right _ hJ.1, ?_⟩
      rw [lookupParent_added_not_mem _ _ _ _ (fun h => hfresh' _ h hJ.1)]
      exact hJ.2)
    10001 _ isFound st' hinv1 hJ1 hloop
  have hfirst : searchLoop Q found goal walls fences searchFuel
      { frontier := Q.push Q.empty start, visited := [start], parents := [] } =
      some (isFound, st') := by
    rw [searchFuel_eq, searchLoop, hpop]
    simp only
    rw [if_neg (Ne.symm hne)]
    exact hloop
  rw [FindPathBFS, if_neg hguard, hfirst]
  cases isFound with
  | false => exact absurd hJ.1 (hnot rfl).1
  | true =>
    simp only
    obtain ⟨path, hwalk, -, -⟩ := htree.walk goal hJ.1
    cases hlen : st'.visited.length with
    | zero => rw [hlen] at hwalk; simp [walkParents] at hwalk
    | succ k =>
      cases k with
      | zero =>
        rw [hlen, walkParents, if_neg hne, hJ.2] at hwalk
        simp [walkParents] at hwalk
      | succ j =>
        rw [walkParents, if_neg hne, hJ.2, walkParents, if_pos rfl]
        rfl

/-! ## A search without obstacles -/

/-- In the search from (0,0) to (2,2) without obstacles, served by `tieQueue`,
the goal is marked before (1,1) is expanded, so (1,1) never becomes its parent:
when (1,1) is popped, the cells (0,0), (0,1), (0,2), (1,3) rank above it and
have left the frontier, and expanding (1,3) marked (2,2). -/
theorem tieQueue_parent_step (hl : Lossy found) (st : SearchState (tieQueue ⟨2, 2⟩).σ)
    (current : Position) (rest : (tieQueue ⟨2, 2⟩).σ)
    (hinv : Inv (tieQueue ⟨2, 2⟩) found ⟨2, 2⟩ [] [] ⟨0, 0⟩ st)
    (hJ : (⟨2, 2⟩ : Position) ∈ st.visited → lookupParent st.parents ⟨2, 2⟩ ≠ ⟨1, 1⟩)
    (hpop : (tieQueue ⟨2, 2⟩).pop st.frontier = some (current, rest))
    (_hcg : current ≠ ⟨2, 2⟩) :
    (⟨2, 2⟩ : Position) ∈
        (expand (tieQueue ⟨2, 2⟩) found [] [] current { st with frontier := rest }).visited →
      lookupParent
        (expand (tieQueue ⟨2, 2⟩) found [] [] current { st with frontier := rest }).parents
        ⟨2, 2⟩ ≠ ⟨1, 1⟩ := by
  obtain ⟨added, hv, hp, hfresh⟩ := foldl_visitNeighbor_added (tieQueue ⟨2, 2⟩) current
    (GetNeighbors found current [] []) { st with frontier := rest }
  rw [expand, hv, hp]
  intro hmem
  by_cases hold : (⟨2, 2⟩ : Position) ∈ st.visited
  · rw [lookupParent_added_not_mem _ _ _ _ (fun h => hfresh _ h hold)]
    exact hJ hold
  · have hadd : (⟨2, 2⟩ : Position) ∈ added := (List.mem_append.mp hmem).resolve_right hold
    rw [lookupParent_added_mem _ _ _ _ hadd]
    intro hcur
    rw [hcur] at hpop
    have hmax : ∀ y ∈ (tieQueue ⟨2, 2⟩).toList st.frontier,
        tieCmp ⟨2, 2⟩ ⟨1, 1⟩ y = false :=
      (tieListQueue ⟨2, 2⟩).pop_max st.frontier ⟨1, 1⟩ rest hpop
    have hstep : ∀ c n : Position, c ∈ st.visited → tieCmp ⟨2, 2⟩ ⟨1, 1⟩ c = true →
        kingAdjacent c n → inBounds n → n ∈ st.visited := by
      intro c n hc ht hk hb
      refine (hinv.expanded c hc (fun hf => ?_)).2 n
        (mem_GetNeighbors_of_free hl hk hb (by simp [occupied]))
      rw [hmax c hf] at ht
      exact absurd ht (by simp)
    have h0 : (⟨0, 0⟩ : Position) ∈ st.visited := hinv.tree.start_mem
    have h1 := hstep ⟨0, 0⟩ ⟨0, 1⟩ h0 (by decide) (by decide) (by decide)
    have h2 := hstep ⟨0, 1⟩ ⟨0, 2⟩ h1 (by decide) (by decide) (by decide)
    have h3 := hstep ⟨0, 2⟩ ⟨1, 3⟩ h2 (by decide) (by decide) (by decide)
    have h4 := hstep ⟨1, 3⟩ ⟨2, 2⟩ h3 (by decide) (by decide) (by decide)
    exact hold h4

theorem FindPathBFS_open_field (hl : Lossy found) (Q : PriorityQueue (cmp ⟨2, 2⟩)) :
    ∃ path, FindPathBFS found ⟨0, 0⟩ ⟨2, 2⟩ [] [] Q = some path ∧
      IsPath found [] [] ⟨0, 0⟩ ⟨2, 2⟩ path ∧ 3 ≤ path.length := by
  rcases FindPathBFS_outcome found ⟨0, 0⟩ ⟨2, 2⟩ [] [] Q with
    ⟨-, hocc | ⟨V, hs, hg, hclosed⟩⟩ | ⟨path, h, -, hp⟩
  · exact absurd hocc (by decide)
  · have h1 : (⟨1, 1⟩ : Position) ∈ V :=
      hclosed _ hs _ (mem_GetNeighbors_of_free hl (by decide) (by decide) (by decide))
    have h2 : (⟨2, 2⟩ : Position) ∈ V :=
      hclosed _ h1 _ (mem_GetNeighbors_of_free hl (by decide) (by decide) (by decide))
    exact absurd h2 hg
  · refine ⟨path, h, hp, ?_⟩
    have hhead := hp.head
    have hlast := hp.last
    have hchain := hp.chain
    match path, hhead, hlast, hchain with
    | [], hhead, _, _ => simp at hhead
    | [a], hhead, hlast, _ =>
      simp only [List.head?_cons, List.getLast?_singleton, Option.some.injEq] at hhead hlast
      rw [hhead] at hlast
      exact absurd hlast (by decide)
    | [a, b], hhead, hlast, hchain =>
      simp only [List.head?_cons, List.getLast?_cons_cons, List.getLast?_singleton,
        Option.some.injEq] at hhead hlast
      have hab : StepFrom found [] [] a b := (List.chain'_cons.mp hchain).1
      rw [hhead, hlast] at hab
      exact absurd (kingAdjacent_of_stepFrom hab) (by decide)
    | _ :: _ :: _ :: _, _, _, _ => simp

theorem FindPathBFS_tieQueue (hl : Lossy found) :
    ∃ path, FindPathBFS found ⟨0, 0⟩ ⟨2, 2⟩ [] [] (tieQueue ⟨2, 2⟩) = some path ∧
      3 < path.length := by
  obtain ⟨isFound, st, hloop, htree, hfound, hnot⟩ :=
    searchLoop_spec (tieQueue ⟨2, 2⟩) ⟨2, 2⟩ searchFuel _
      (Inv.init (tieQueue ⟨2, 2⟩) found ⟨2, 2⟩ [] [] ⟨0, 0⟩) (by
        simp only [length_toList_push, PriorityQueue.toList_empty, searchFuel_eq,
          List.length_cons, List.length_nil]
        omega)
  have hJ := searchLoop_induct (tieQueue ⟨2, 2⟩) ⟨2, 2⟩
    (fun v p => (⟨2, 2⟩ : Position) ∈ v → lookupParent p ⟨2, 2⟩ ≠ ⟨1, 1⟩)
    (tieQueue_parent_step hl) searchFuel _ isFound st
    (Inv.init (tieQueue ⟨2, 2⟩) found ⟨2, 2⟩ [] [] ⟨0, 0⟩) (by decide) hloop
  cases isFound with
  | false =>
    obtain ⟨hg, hclosed⟩ := hnot rfl
    have h1 : (⟨1, 1⟩ : Position) ∈ st.visited :=
      hclosed _ htree.start_mem _
        (mem_GetNeighbors_of_free hl (by decide) (by decide) (by decide))
    have h2 : (⟨2, 2⟩ : Position) ∈ st.visited :=
      hclosed _ h1 _ (mem_GetNeighbors_of_free hl (by decide) (by decide) (by decide))
    exact absurd h2 hg
  | true =>
    have hgoal := hfound rfl
    have hparent := hJ hgoal
    obtain ⟨path, hwalk, hpath, -⟩ := htree.walk ⟨2, 2⟩ hgoal
    refine ⟨path, ?_, ?_⟩
    · rw [FindPathBFS, if_neg (by simp), hloop]
      exact hwalk
    · cases hlen : st.visited.length with
      | zero => rw [hlen] at hwalk; simp [walkParents] at hwalk
      | succ k =>
        rw [hlen, walkParents, if_neg (by decide), Option.map_eq_some'] at hwalk
        obtain ⟨rest, hrest, hcons⟩ := hwalk
        have hhead := walkParents_head _ _ _ _ _ hrest
        have hlast := hpath.last
        have hchain := hpath.chain
        rw [← hcons] at hlast hchain ⊢
        match rest, hhead, hlast, hchain with
        | [], hhead, _, _ => simp at hhead
        | [a], _, hlast, hchain =>
          simp only [List.getLast?_cons_cons, List.getLast?_singleton,
            Option.some.injEq] at hlast
          have hab : StepFrom found [] [] ⟨2, 2⟩ a := (List.chain'_cons.mp hchain).1
          rw [hlast] at hab
          exact absurd (kingAdjacent_of_stepFrom hab) (by decide)
        | [a, b], hhead, hlast, hchain =>
          simp only [List.getLast?_cons_cons, List.getLast?_singleton,
            Option.some.injEq] at hlast
          simp only [List.head?_cons, Option.some.injEq] at hhead
          have hga : StepFrom found [] [] ⟨2, 2⟩ a := (List.chain'_cons.mp hchain).1
          have hab : StepFrom found [] [] a b :=
            (List.chain'_cons.mp (List.chain'_cons.mp hchain).2).1
          rw [hlast] at hab
          obtain ⟨hk, hb, -⟩ := (mem_GetNeighbors found ⟨0, 0⟩ a [] []).mp hab
          rcases corner_neighbors hk hb with h | h | h
          · rw [h] at hga; exact absurd (kingAdjacent_of_stepFrom hga) (by decide)
          · rw [h] at hga; exact absurd (kingAdjacent_of_stepFrom hga) (by decide)
          · exact absurd (hhead.symm.trans h) hparent
        | _ :: _ :: _ :: _, _, _, _ => simp

/-! ## Searches across obstacles -/

/-- The structure of every result of `FindPathBFS`, whatever the searches of the
destroyed vector find: a duplicate-free chain of king moves from `goal` to
`start` whose cells other than `start` lie in the grid. -/
theorem FindPathBFS_structure (found : Position → List Position → Position → Bool)
    (start goal : Position) (walls : List Wall) (fences : List Fence)
    (Q : PriorityQueue (cmp goal)) :
    ∃ path, FindPathBFS found start goal walls fences Q = some path ∧
      (path ≠ [] → path.head? = some goal ∧ path.getLast? = some start) ∧
      path.Chain' kingAdjacent ∧ path.Nodup ∧ ∀ c ∈ path, c ≠ start → inBounds c := by
  rcases FindPathBFS_outcome found start goal walls fences Q with
    ⟨h, -⟩ | ⟨path, h, -, hp⟩
  · exact ⟨[], h, fun hne => absurd rfl hne, List.chain'_nil, List.nodup_nil,
      fun c hc => by simp at hc⟩
  · exact ⟨path, h, fun _ => ⟨hp.head, hp.last⟩,
      hp.chain.imp fun _ _ hab => kingAdjacent_of_stepFrom hab, hp.nodup, hp.generated⟩

/-- When every search of the destroyed vector reports a match, the view yields
nothing, and the search returns the empty sequence for every goal other than
`start`. -/
theorem FindPathBFS_nothing_yielded (hall : ∀ pos obstacles n, found pos obstacles n = true)
    (start goal : Position) (walls : List Wall) (fences : List Fence)
    (Q : PriorityQueue (cmp goal)) (hne : goal ≠ start) :
    FindPathBFS found start goal walls fences Q = some [] := by
  rcases FindPathBFS_outcome found start goal walls fences Q with ⟨h, -⟩ | ⟨path, -, -, hp⟩
  · exact h
  · obtain ⟨c, -, hstep⟩ := chain_before_last start path goal hp.chain hp.head hp.last hne
    have hf := ((mem_GetNeighbors found start c walls fences).mp hstep).2.2
    rw [hall] at hf
    exact absurd hf (by simp)

/-- In the search from (0,0) to (2,2) with a single wall on (1,1), whatever the
searches of the destroyed vector find, a non-empty result holds (0,1), (1,0) or
(1,1): the cell before `start` is a king-move neighbour of (0,0) in the grid. -/
theorem FindPathBFS_single_wall (found : Position → List Position → Position → Bool)
    (Q : PriorityQueue (cmp ⟨2, 2⟩)) :
    ∃ path, FindPathBFS found ⟨0, 0⟩ ⟨2, 2⟩ [⟨⟨1, 1⟩⟩] [] Q = some path ∧
      (path = [] ∨ (⟨0, 1⟩ : Position) ∈ path ∨ (⟨1, 0⟩ : Position) ∈ path ∨
        (⟨1, 1⟩ : Position) ∈ path) := by
  rcases FindPathBFS_outcome found ⟨0, 0⟩ ⟨2, 2⟩ [⟨⟨1, 1⟩⟩] [] Q with
    ⟨h, -⟩ | ⟨path, h, -, hp⟩
  · exact ⟨[], h, Or.inl rfl⟩
  · refine ⟨path, h, Or.inr ?_⟩
    obtain ⟨c, hc, hstep⟩ := chain_before_last ⟨0, 0⟩ path ⟨2, 2⟩ hp.chain hp.head hp.last
      (by decide)
    obtain ⟨hk, hb, -⟩ := (mem_GetNeighbors found ⟨0, 0⟩ c [⟨⟨1, 1⟩⟩] []).mp hstep
    rcases corner_neighbors hk hb with h1 | h1 | h1
    · exact Or.inl (h1 ▸ hc)
    · exact Or.inr (Or.inl (h1 ▸ hc))
    · exact Or.inr (Or.inr (h1 ▸ hc))

/-- In that search the result is not empty when the searches of the destroyed
vector invent no entry: (0,1), (1,2) and (2,2) are free. -/
theorem FindPathBFS_single_wall_found (hl : Lossy found) (Q : PriorityQueue (cmp ⟨2, 2⟩)) :
    ∃ path, FindPathBFS found ⟨0, 0⟩ ⟨2, 2⟩ [⟨⟨1, 1⟩⟩] [] Q = some path ∧
      ∃ c ∈ path, c ≠ (⟨0, 0⟩ : Position) ∧ c ≠ (⟨2, 2⟩ : Position) ∧
        ManhattanDistance c ⟨1, 1⟩ ≤ 2 := by
  rcases FindPathBFS_outcome found ⟨0, 0⟩ ⟨2, 2⟩ [⟨⟨1, 1⟩⟩] [] Q with
    ⟨-, hocc | ⟨V, hs, hg, hclosed⟩⟩ | ⟨path, h, -, hp⟩
  · exact absurd hocc (by decide)
  · have h1 : (⟨0, 1⟩ : Position) ∈ V :=
      hclosed _ hs _ (mem_GetNeighbors_of_free hl (by decide) (by decide) (by decide))
    have h2 : (⟨1, 2⟩ : Position) ∈ V :=
      hclosed _ h1 _ (mem_GetNeighbors_of_free hl (by decide) (by decide) (by decide))
    have h3 : (⟨2, 2⟩ : Position) ∈ V :=
      hclosed _ h2 _ (mem_GetNeighbors_of_free hl (by decide) (by decide) (by decide))
    exact absurd h3 hg
  · obtain ⟨path', h', hcases⟩ := FindPathBFS_single_wall found Q
    have hpp : path' = path := Option.some.inj (h'.symm.trans h)
    subst hpp
    refine ⟨path', h, ?_⟩
    rcases hcases with hnil | hc | hc | hc
    · exact absurd hnil hp.nonempty
    · exact ⟨_, hc, by decide, by decide, by decide⟩
    · exact ⟨_, hc, by decide, by decide, by decide⟩
    · exact ⟨_, hc, by decide, by decide, by decide⟩

theorem occupied_rowWalls (k x : Int) (h0 : 0 ≤ x) (h1 : x < 100) :
    occupied (rowWalls k) [] ⟨x, k⟩ := by
  have hx : Int.ofNat x.toNat = x := Int.toNat_of_nonneg h0
  have hlt : x.toNat < 100 := by omega
  exact Or.inl ⟨⟨⟨x, k⟩⟩, List.mem_map.mpr ⟨x.toNat, List.mem_range.mpr hlt, by rw [hx]⟩, rfl⟩

theorem occupied_columnFences (k y : Int) (h0 : 0 ≤ y) (h1 : y < 100) :
    occupied [] (columnFences k) ⟨k, y⟩ := by
  have hy : Int.ofNat y.toNat = y := Int.toNat_of_nonneg h0
  have hlt : y.toNat < 100 := by omega
  exact Or.inr ⟨⟨y.toNat, ⟨k, y⟩⟩,
    List.mem_map.mpr ⟨y.toNat, List.mem_range.mpr hlt, by rw [hy]⟩, rfl⟩

theorem occupied_rowWalls_iff (k : Int) (p : Position) :
    occupied (rowWalls k) [] p ↔ p.y = k ∧ 0 ≤ p.x ∧ p.x < 100 := by
  constructor
  · intro hocc
    simp only [occupied, rowWalls, List.mem_map, List.mem_range, List.not_mem_nil, false_and,
      exists_false, or_false] at hocc
    obtain ⟨w, ⟨i, hi, rfl⟩, hw⟩ := hocc
    rw [← hw]
    show k = k ∧ 0 ≤ Int.ofNat i ∧ Int.ofNat i < 100
    refine ⟨rfl, Int.ofNat_nonneg i, ?_⟩
    simp only [Int.ofNat_eq_coe]
    omega
  · rintro ⟨hy, h0, h1⟩
    have hp : (⟨p.x, k⟩ : Position) = p := (Position.eq_iff _ _).mpr ⟨rfl, hy.symm⟩
    rw [← hp]
    exact occupied_rowWalls k p.x h0 h1

theorem occupied_columnFences_iff (k : Int) (p : Position) :
    occupied [] (columnFences k) p ↔ p.x = k ∧ 0 ≤ p.y ∧ p.y < 100 := by
  constructor
  · intro hocc
    simp only [occupied, columnFences, List.mem_map, List.mem_range, List.not_mem_nil,
      false_and, exists_false, false_or] at hocc
    obtain ⟨f, ⟨i, hi, rfl⟩, hf⟩ := hocc
    rw [← hf]
    show k = k ∧ 0 ≤ Int.ofNat i ∧ Int.ofNat i < 100
    refine ⟨rfl, Int.ofNat_nonneg i, ?_⟩
    simp only [Int.ofNat_eq_coe]
    omega
  · rintro ⟨hx, h0, h1⟩
    have hp : (⟨k, p.y⟩ : Position) = p := (Position.eq_iff _ _).mpr ⟨hx.symm, rfl⟩
    rw [← hp]
    exact occupied_columnFences k p.y h0 h1

/-- The search from (0,0) to (0,2) across row 1 filled with walls, when the
searches of the destroyed vector never find the first two collected entries: at
(0,0) the two collected walls (0,1), (1,1) are not found, so (0,1) is pushed,
and from (0,1) the free cell (0,2) is pushed.  The result is a path, and it
holds a cell of row 1. -/
theorem FindPathBFS_row (h2 : LosesFirstTwo found) (Q : PriorityQueue (cmp ⟨0, 2⟩)) :
    ∃ path, FindPathBFS found ⟨0, 0⟩ ⟨0, 2⟩ (rowWalls 1) [] Q = some path ∧
      path ≠ [] ∧ ∃ c ∈ path, c ≠ (⟨0, 0⟩ : Position) ∧ occupied (rowWalls 1) [] c := by
  rcases FindPathBFS_outcome found ⟨0, 0⟩ ⟨0, 2⟩ (rowWalls 1) [] Q with
    ⟨-, hocc | ⟨V, hs, hg, hclosed⟩⟩ | ⟨path, h, -, hp⟩
  · exact absurd hocc (by decide)
  · have h1 : (⟨0, 1⟩ : Position) ∈ V :=
      hclosed _ hs _ (mem_GetNeighbors_of_lost h2 (by decide) (by decide) (by decide))
    have h3 : (⟨0, 2⟩ : Position) ∈ V :=
      hclosed _ h1 _ (mem_GetNeighbors_of_free h2.lossy (by decide) (by decide)
        (by decide))
    exact absurd h3 hg
  · refine ⟨path, h, hp.nonempty, ?_⟩
    by_contra hno
    have hall := chain_propagate_mem (fun c : Position => c.y < 1) ⟨0, 0⟩ (by decide) path
      (fun a b ha hb hab => by
        obtain ⟨⟨-, -, hy⟩, hin, -⟩ :=
          (mem_GetNeighbors found b a (rowWalls 1) []).mp hab
        have hb' : b.y < 1 := hb
        show a.y < 1
        by_contra hlt
        have hay : a.y = 1 := by omega
        apply hno
        refine ⟨a, ha, fun e => ?_, ?_⟩
        · rw [e] at hay; exact absurd hay (by decide)
        · exact (occupied_rowWalls_iff 1 a).mpr ⟨hay, hin.1, hin.2.1⟩)
      hp.chain hp.last ⟨0, 2⟩ (List.mem_of_mem_head? hp.head)
    exact absurd hall (by decide)

/-- The search from (0,0) to (2,0) across column 1 filled with fences, when the
searches of the destroyed vector never find the first two collected entries:
the result is a path, and it holds a cell of column 1. -/
theorem FindPathBFS_column (h2 : LosesFirstTwo found) (Q : PriorityQueue (cmp ⟨2, 0⟩)) :
    ∃ path, FindPathBFS found ⟨0, 0⟩ ⟨2, 0⟩ [] (columnFences 1) Q = some path ∧
      path ≠ [] ∧ ∃ c ∈ path, c ≠ (⟨0, 0⟩ : Position) ∧ occupied [] (columnFences 1) c := by
  rcases FindPathBFS_outcome found ⟨0, 0⟩ ⟨2, 0⟩ [] (columnFences 1) Q with
    ⟨-, hocc | ⟨V, hs, hg, hclosed⟩⟩ | ⟨path, h, -, hp⟩
  · exact absurd hocc (by decide)
  · have h1 : (⟨1, 0⟩ : Position) ∈ V :=
      hclosed _ hs _ (mem_GetNeighbors_of_lost h2 (by decide) (by decide) (by decide))
    have h3 : (⟨2, 0⟩ : Position) ∈ V :=
      hclosed _ h1 _ (mem_GetNeighbors_of_free h2.lossy (by decide) (by decide)
        (by decide))
    exact absurd h3 hg
  · refine ⟨path, h, hp.nonempty, ?_⟩
    by_contra hno
    have hall := chain_propagate_mem (fun c : Position => c.x < 1) ⟨0, 0⟩ (by decide) path
      (fun a b ha hb hab => by
        obtain ⟨⟨-, hx, -⟩, hin, -⟩ :=
          (mem_GetNeighbors found b a [] (columnFences 1)).mp hab
        have hb' : b.x < 1 := hb
        show a.x < 1
        by_contra hlt
        have hax : a.x = 1 := by omega
        apply hno
        refine ⟨a, ha, fun e => ?_, ?_⟩
        · rw [e] at hax; exact absurd hax (by decide)
        · exact (occupied_columnFences_iff 1 a).mpr ⟨hax, hin.2.2.1, hin.2.2.2⟩)
      hp.chain hp.last ⟨2, 0⟩ (List.mem_of_mem_head? hp.head)
    exact absurd hall (by decide)

/-- A property that holds for `start` and is passed on along king moves to free
cells of the grid holds for every cell of every route from `start`. -/
theorem route_invariant (P : Position → Prop)
    (hstep : ∀ a b, P a → kingAdjacent a b → inBounds b → ¬ occupied walls fences b → P b) :
    ∀ (chain : List Position) (a : Position), chain.head? = some a → P a →
      chain.Chain' kingAdjacent →
      (∀ c ∈ chain.tail, inBounds c ∧ ¬ occupied walls fences c) → ∀ c ∈ chain, P c := by
  intro chain
  induction chain with
  | nil => intro _ _ _ _ _ c hc; simp at hc
  | cons x rest ih =>
    intro a hhead ha hchain hfree c hc
    have hxa : x = a := by simpa using hhead
    subst hxa
    cases rest with
    | nil =>
      have : c = x := by simpa using hc
      rw [this]; exact ha
    | cons b rest' =>
      have hab : kingAdjacent x b := (List.chain'_cons.mp hchain).1
      have hrest : (b :: rest').Chain' kingAdjacent := (List.chain'_cons.mp hchain).2
      have hbfree := hfree b (by simp)
      have hb : P b := hstep x b ha hab hbfree.1 hbfree.2
      rcases List.mem_cons.mp hc with rfl | hc'
      · exact ha
      · exact ih b (by simp) hb hrest
          (fun d hd => hfree d (by
            simp only [List.tail_cons] at hd ⊢
            exact List.mem_cons_of_mem _ hd)) c hc'

/-- No route of free cells leads from (0,0) to (2,0) across column 1 filled with
fences. -/
theorem no_route_across_column (chain : List Position) :
    ¬ IsRoute [] (columnFences 1) ⟨0, 0⟩ ⟨2, 0⟩ chain := by
  rintro ⟨hhead, hlast, hchain, hfree⟩
  have hall := route_invariant (fun c : Position => c.x < 1)
    (fun a b ha hab hin hfr => by
      obtain ⟨-, hx, -⟩ := hab
      have ha' : a.x < 1 := ha
      show b.x < 1
      by_contra hlt
      have hbx : b.x = 1 := by omega
      exact hfr ((occupied_columnFences_iff 1 b).mpr ⟨hbx, hin.2.2.1, hin.2.2.2⟩))
    chain ⟨0, 0⟩ hhead (by decide) hchain hfree ⟨2, 0⟩ (List.mem_of_getLast?_eq_some hlast)
  exact absurd hall (by decide)

/-- The two listings `cornerWalls` and `cornerWallsRelisted` occupy the same
cells. -/
theorem occupied_cornerWalls (p : Position) :
    occupied cornerWalls [] p ↔ occupied cornerWallsRelisted [] p := by
  simp only [occupied, cornerWalls, cornerWallsRelisted, List.mem_cons, List.mem_nil_iff,
    or_false, exists_eq_or_imp, exists_eq_left, exists_false, List.mem_singleton]
  tauto

/-- With the walls listed as `cornerWalls`, the two entries lost at (0,0) are
(0,1) and (1,0): (0,1) is pushed, and from it the free goal (0,2). -/
theorem FindPathBFS_cornerWalls (h2 : LosesFirstTwo found) (Q : PriorityQueue (cmp ⟨0, 2⟩)) :
    ∃ path, FindPathBFS found ⟨0, 0⟩ ⟨0, 2⟩ cornerWalls [] Q = some path ∧ path ≠ [] ∧
      ∃ c ∈ path, c ≠ (⟨0, 0⟩ : Position) ∧ occupied cornerWalls [] c := by
  rcases FindPathBFS_outcome found ⟨0, 0⟩ ⟨0, 2⟩ cornerWalls [] Q with
    ⟨-, hocc | ⟨V, hs, hg, hclosed⟩⟩ | ⟨path, h, -, hp⟩
  · exact absurd hocc (by decide)
  · have hfound : ∀ n, found ⟨0, 0⟩ (collectObstacles ⟨0, 0⟩ cornerWalls []) n = true →
        n = ⟨1, 1⟩ := by
      intro n hn
      have := h2 _ _ _ hn
      have hdrop : (collectObstacles ⟨0, 0⟩ cornerWalls []).drop 2 = [⟨1, 1⟩] := by decide
      rw [hdrop] at this
      simpa using this
    have h1 : (⟨0, 1⟩ : Position) ∈ V := by
      refine hclosed _ hs _ ((mem_GetNeighbors found _ _ _ _).mpr ⟨by decide, by decide, ?_⟩)
      cases hf : found ⟨0, 0⟩ (collectObstacles ⟨0, 0⟩ cornerWalls []) ⟨0, 1⟩ with
      | false => rfl
      | true => exact absurd (hfound _ hf) (by decide)
    have h3 : (⟨0, 2⟩ : Position) ∈ V :=
      hclosed _ h1 _ (mem_GetNeighbors_of_free h2.lossy (by decide) (by decide)
        (by decide))
    exact absurd h3 hg
  · refine ⟨path, h, hp.nonempty, ?_⟩
    obtain ⟨c, hc, hstep⟩ := chain_before_last ⟨0, 0⟩ path ⟨0, 2⟩ hp.chain hp.head hp.last
      (by decide)
    obtain ⟨hk, hb, -⟩ := (mem_GetNeighbors found ⟨0, 0⟩ c cornerWalls []).mp hstep
    refine ⟨c, hc, fun e => hk.1 e.symm, ?_⟩
    rcases corner_neighbors hk hb with h1 | h1 | h1 <;> (rw [h1]; decide)

/-- With the walls listed as `cornerWallsRelisted`, the first two entries collected
at (0,0) are copies of (1,1).  When the entries after them, (0,1), (1,0), (1,1),
are still found, nothing is yielded for (0,0) and the search fails. -/
theorem FindPathBFS_cornerWallsRelisted
    (hkept : ∀ n ∈ (collectObstacles ⟨0, 0⟩ cornerWallsRelisted []).drop 2,
      found ⟨0, 0⟩ (collectObstacles ⟨0, 0⟩ cornerWallsRelisted []) n = true)
    (Q : PriorityQueue (cmp ⟨0, 2⟩)) :
    FindPathBFS found ⟨0, 0⟩ ⟨0, 2⟩ cornerWallsRelisted [] Q = some [] := by
  rcases FindPathBFS_outcome found ⟨0, 0⟩ ⟨0, 2⟩ cornerWallsRelisted [] Q with
    ⟨h, -⟩ | ⟨path, -, -, hp⟩
  · exact h
  · obtain ⟨c, -, hstep⟩ := chain_before_last ⟨0, 0⟩ path ⟨0, 2⟩ hp.chain hp.head hp.last
      (by decide)
    obtain ⟨hk, hb, hf⟩ := (mem_GetNeighbors found ⟨0, 0⟩ c cornerWallsRelisted []).mp hstep
    have hdrop : (collectObstacles ⟨0, 0⟩ cornerWallsRelisted []).drop 2 =
        [⟨0, 1⟩, ⟨1, 0⟩, ⟨1, 1⟩] := by decide
    have hc : c ∈ (collectObstacles ⟨0, 0⟩ cornerWallsRelisted []).drop 2 := by
      rw [hdrop]
      simp only [List.mem_cons, List.mem_nil_iff, or_false]
      exact corner_neighbors hk hb
    rw [hkept c hc] at hf
    exact absurd hf (by simp)

/-! ## The intact read -/

/-- When the destroyed vector still reads as collected, the cells `GetNeighbors`
yields are the king-move neighbours of `pos` that lie in the grid and are not
the position of a wall or fence: a neighbour of `pos` is within Manhattan
distance 2 of `pos`, so collecting only the obstacles that close does not change
the outcome of the equality test. -/
theorem mem_GetNeighbors_intact (pos n : Position) (walls : List Wall)
    (fences : List Fence) :
    n ∈ GetNeighbors intactFound pos walls fences ↔
      kingAdjacent pos n ∧ inBounds n ∧ ¬ occupied walls fences n := by
  rw [mem_GetNeighbors]
  simp only [intactFound, decide_eq_false_iff_not, mem_collectObstacles]
  constructor
  · rintro ⟨hk, hb, hno⟩
    refine ⟨hk, hb, fun hocc => hno ⟨?_, hocc⟩⟩
    obtain ⟨-, hx, hy⟩ := hk
    simp only [ManhattanDistance]
    omega
  · rintro ⟨hk, hb, hfree⟩
    exact ⟨hk, hb, fun h => hfree h.2⟩

theorem mem_positions_iff (walls : List Wall) (fences : List Fence) (n : Position) :
    n ∈ (walls.map fun wall => wall.position) ++ (fences.map fun fence => fence.position) ↔
      occupied walls fences n := by
  simp only [List.mem_append, List.mem_map, occupied]

/-- When the destroyed vector still reads as collected, `GetNeighbors` is
exact-cell neighbour generation. -/
theorem GetNeighbors_intact_eq_exact (pos : Position) (walls : List Wall)
    (fences : List Fence) :
    GetNeighbors intactFound pos walls fences = GetNeighborsExact pos walls fences := by
  have hlist : (kingOffsets.map fun d => (⟨pos.x + d.1, pos.y + d.2⟩ : Position)) =
      [⟨pos.x - 1, pos.y - 1⟩, ⟨pos.x - 1, pos.y⟩, ⟨pos.x - 1, pos.y + 1⟩,
       ⟨pos.x, pos.y - 1⟩, ⟨pos.x, pos.y + 1⟩,
       ⟨pos.x + 1, pos.y - 1⟩, ⟨pos.x + 1, pos.y⟩, ⟨pos.x + 1, pos.y + 1⟩] := by
    simp only [kingOffsets, List.map_cons, List.map_nil, Int.add_zero, Int.reduceNeg,
      ← Int.sub_eq_add_neg]
  rw [GetNeighborsExact, hlist, GetNeighbors]
  have hin : ∀ l : List Position,
      (l.filter fun neighbor => decide (neighbor.x ≥ 0 ∧ neighbor.x < kMapSize ∧
        neighbor.y ≥ 0 ∧ neighbor.y < kMapSize)) =
      l.filter fun n => decide (inBounds n) := by
    intro l
    apply List.filter_congr
    intro n _
    apply Bool.eq_iff_iff.mpr
    simp only [decide_eq_true_eq, inBounds, ge_iff_le]
  rw [hin]
  apply List.filter_congr
  intro n hn
  have hn' := (List.mem_filter.mp hn).1
  have hdist : ManhattanDistance pos n ≤ 2 := by
    simp only [List.mem_cons, List.mem_nil_iff, or_false] at hn'
    simp only [ManhattanDistance]
    rcases hn' with h | h | h | h | h | h | h | h <;> (rw [h]; simp only; omega)
  have hobs := mem_collectObstacles pos walls fences n
  rw [collectObstacles] at hobs
  apply Bool.eq_iff_iff.mpr
  simp only [intactFound, Bool.not_eq_true', decide_eq_false_iff_not, decide_eq_true_eq]
  rw [hobs, mem_positions_iff]
  constructor
  · intro h hocc; exact h ⟨hdist, hocc⟩
  · intro h hocc; exact h hocc.2

/-- When the destroyed vector still reads as collected, no cell of the result
other than the start cell is the position of a wall or fence. -/
theorem FindPathBFS_intact_avoids_obstacles (start goal : Position) (walls : List Wall)
    (fences : List Fence) (Q : PriorityQueue (cmp goal)) :
    ∃ path, FindPathBFS intactFound start goal walls fences Q = some path ∧
      ∀ c ∈ path, c ≠ start → ¬ occupied walls fences c := by
  rcases FindPathBFS_outcome intactFound start goal walls fences Q with
    ⟨h, -⟩ | ⟨path, h, -, hp⟩
  · exact ⟨[], h, fun c hc => by simp at hc⟩
  · refine ⟨path, h, fun c hc hne => ?_⟩
    rcases chain_step_or_last path hp.chain c hc with hl | ⟨b, _, hb⟩
    · rw [hp.last] at hl
      exact absurd (Option.some.inj hl).symm hne
    · exact ((mem_GetNeighbors_intact b c walls fences).mp hb).2.2

/-- When the destroyed vector still reads as collected, the result is non-empty
exactly when the goal is free and a route of free cells of the grid leads from
`start` to `goal`. -/
theorem FindPathBFS_intact_complete (start goal : Position) (walls : List Wall)
    (fences : List Fence) (Q : PriorityQueue (cmp goal)) :
    ∃ path, FindPathBFS intactFound start goal walls fences Q = some path ∧
      (path ≠ [] ↔
        (¬ occupied walls fences goal ∧ ∃ chain, IsRoute walls fences start goal chain)) := by
  rcases FindPathBFS_outcome intactFound start goal walls fences Q with
    ⟨h, hocc | ⟨V, hs, hg, hclosed⟩⟩ | ⟨path, h, hfree, hp⟩
  · exact ⟨[], h, ⟨fun hne => absurd rfl hne, fun hr => absurd hocc hr.1⟩⟩
  · refine ⟨[], h, ⟨fun hne => absurd rfl hne, ?_⟩⟩
    rintro ⟨-, chain, hhead, hlast, hchain, hcells⟩
    have hall := route_invariant (fun c => c ∈ V)
      (fun a b ha hab hin hfr =>
        hclosed a ha b ((mem_GetNeighbors_intact a b walls fences).mpr ⟨hab, hin, hfr⟩))
      chain start hhead hs hchain hcells
    exact absurd (hall goal (List.mem_of_getLast?_eq_some hlast)) hg
  · refine ⟨path, h, ⟨fun _ => ⟨hfree, path.reverse, ?_, ?_, ?_, ?_⟩, fun _ => hp.nonempty⟩⟩
    · rw [List.head?_reverse]; exact hp.last
    · rw [List.getLast?_reverse]; exact hp.head
    · rw [List.chain'_reverse]
      exact hp.chain.imp fun a b hab => by
        obtain ⟨hne, hx, hy⟩ := kingAdjacent_of_stepFrom hab
        exact ⟨fun e => hne e.symm, by omega, by omega⟩
    · intro c hc
      have hnd : path.reverse.Nodup := List.nodup_reverse.mpr hp.nodup
      have hhead : path.reverse.head? = some start := by
        rw [List.head?_reverse]; exact hp.last
      cases hrev : path.reverse with
      | nil => rw [hrev] at hc; simp at hc
      | cons a rest =>
        rw [hrev] at hc hnd hhead
        have has : a = start := by simpa using hhead
        have hcr : c ∈ rest := by simpa using hc
        have hcne : c ≠ start := by
          intro e
          rw [e, ← has] at hcr
          exact (List.nodup_cons.mp hnd).1 hcr
        have hcp : c ∈ path := by
          have : c ∈ path.reverse := by rw [hrev]; exact List.mem_cons_of_mem _ hcr
          exact List.mem_reverse.mp this
        rcases chain_step_or_last path hp.chain c hcp with hl | ⟨b, _, hb⟩
        · rw [hp.last] at hl
          exact absurd (Option.some.inj hl).symm hcne
        · exact ((mem_GetNeighbors_intact b c walls fences).mp hb).2

/-- When the destroyed vector still reads as collected, a full row `k` of
obstacles between `start` and `goal` makes the search return the empty sequence,
and so does a full column. -/
theorem FindPathBFS_intact_separating_wall (start goal : Position) (walls : List Wall)
    (fences : List Fence) (Q : PriorityQueue (cmp goal)) (k : Int) :
    ((∀ x : Int, 0 ≤ x → x < kMapSize → occupied walls fences ⟨x, k⟩) →
        start.y < k → k < goal.y →
        FindPathBFS intactFound start goal walls fences Q = some []) ∧
    ((∀ y : Int, 0 ≤ y → y < kMapSize → occupied walls fences ⟨k, y⟩) →
        start.x < k → k < goal.x →
        FindPathBFS intactFound start goal walls fences Q = some []) := by
  constructor
  · intro hrow hsy hgy
    apply FindPathBFS_separated start goal walls fences Q (fun c => c.y < k) hsy
      (by simp only; omega)
    intro a b hb hab
    obtain ⟨⟨-, -, hy⟩, hin, hfree⟩ := (mem_GetNeighbors_intact b a walls fences).mp hab
    have hb' : b.y < k := hb
    show a.y < k
    by_contra hlt
    have hak : a.y = k := by omega
    apply hfree
    have := hrow a.x hin.1 hin.2.1
    rw [← hak] at this
    exact this
  · intro hcol hsx hgx
    apply FindPathBFS_separated start goal walls fences Q (fun c => c.x < k) hsx
      (by simp only; omega)
    intro a b hb hab
    obtain ⟨⟨-, hx, -⟩, hin, hfree⟩ := (mem_GetNeighbors_intact b a walls fences).mp hab
    have hb' : b.x < k := hb
    show a.x < k
    by_contra hlt
    have hak : a.x = k := by omega
    apply hfree
    have := hcol a.y hin.2.2.1 hin.2.2.2
    rw [← hak] at this
    exact this

theorem GetNeighbors_intact_congr (pos : Position) (walls₁ walls₂ : List Wall)
    (fences₁ fences₂ : List Fence)
    (h : ∀ p, occupied walls₁ fences₁ p ↔ occupied walls₂ fences₂ p) :
    GetNeighbors intactFound pos walls₁ fences₁ =
      GetNeighbors intactFound pos walls₂ fences₂ := by
  rw [GetNeighbors_intact_eq_exact, GetNeighbors_intact_eq_exact, GetNeighborsExact,
    GetNeighborsExact]
  apply List.filter_congr
  intro n _
  apply Bool.eq_iff_iff.mpr
  simp only [decide_eq_true_eq]
  rw [mem_positions_iff, mem_positions_iff, h n]

theorem searchLoop_intact_congr (Q : PriorityQueue lt)
    (goal : Position) (walls₁ walls₂ : List Wall) (fences₁ fences₂ : List Fence)
    (h : ∀ p, occupied walls₁ fences₁ p ↔ occupied walls₂ fences₂ p) :
    ∀ (fuel : Nat) (st : SearchState Q.σ),
      searchLoop Q intactFound goal walls₁ fences₁ fuel st =
        searchLoop Q intactFound goal walls₂ fences₂ fuel st := by
  intro fuel
  induction fuel with
  | zero => intro st; rfl
  | succ k ih =>
    intro st
    rw [searchLoop, searchLoop]
    cases Q.pop st.frontier with
    | none => rfl
    | some top =>
      simp only [expand, GetNeighbors_intact_congr _ walls₁ walls₂ fences₁ fences₂ h, ih]

/-- When the destroyed vector still reads as collected, the result depends on the
walls and fences only through the set of positions they occupy. -/
theorem FindPathBFS_intact_obstacle_set (start goal : Position) (walls₁ walls₂ : List Wall)
    (fences₁ fences₂ : List Fence) (Q : PriorityQueue (cmp goal))
    (h : ∀ p, occupied walls₁ fences₁ p ↔ occupied walls₂ fences₂ p) :
    FindPathBFS intactFound start goal walls₁ fences₁ Q =
      FindPathBFS intactFound start goal walls₂ fences₂ Q := by
  have hg : ((walls₁.any fun wall => decide (wall.position = goal)) ||
        (fences₁.any fun fence => decide (fence.position = goal))) =
      ((walls₂.any fun wall => decide (wall.position = goal)) ||
        (fences₂.any fun fence => decide (fence.position = goal))) := by
    apply Bool.eq_iff_iff.mpr
    rw [goalCheck_iff, goalCheck_iff]
    exact h goal
  rw [FindPathBFS, FindPathBFS, hg,
    searchLoop_intact_congr Q goal walls₁ walls₂ fences₁ fences₂ h]

/-! ## The claims -/

/-- C1. If `goal` is the position of at least one wall or of at least one fence,
`FindPathBFS` returns the empty sequence, whatever the start (also when
`start = goal`) and whatever the other obstacles. -/
theorem FindPathBFS_goal_occupied (found : Position → List Position → Position → Bool)
    (start goal : Position) (walls : List Wall)
    (fences : List Fence) (Q : PriorityQueue (cmp goal))
    (h : occupied walls fences goal) :
    FindPathBFS found start goal walls fences Q = some [] := by
  rw [FindPathBFS, if_pos ((goalCheck_iff goal walls fences).mpr h)]

/-- C1 at a concrete input: the goal (5,5) carries a fence, and is also the start. -/
theorem FindPathBFS_goal_occupied_witness :
    occupied [⟨⟨1, 1⟩⟩] [⟨3, ⟨5, 5⟩⟩] ⟨5, 5⟩ ∧
      FindPathBFS freedFound ⟨5, 5⟩ ⟨5, 5⟩ [⟨⟨1, 1⟩⟩] [⟨3, ⟨5, 5⟩⟩] (refQueue ⟨5, 5⟩) =
        some [] :=
  ⟨by decide, FindPathBFS_goal_occupied freedFound ⟨5, 5⟩ ⟨5, 5⟩ [⟨⟨1, 1⟩⟩] [⟨3, ⟨5, 5⟩⟩]
    (refQueue ⟨5, 5⟩) (by decide)⟩

/-- C2. `FindPathBFS` returns a sequence, and when that sequence is non-empty its
first element is `goal` and its last element is `start`: the order is
goal, ..., start and no partial path is returned.  This holds whatever the
searches of the destroyed vector find. -/
theorem FindPathBFS_endpoints (found : Position → List Position → Position → Bool)
    (start goal : Position) (walls : List Wall)
    (fences : List Fence) (Q : PriorityQueue (cmp goal)) :
    ∃ path, FindPathBFS found start goal walls fences Q = some path ∧
      (path ≠ [] → path.head? = some goal ∧ path.getLast? = some start) := by
  rcases FindPathBFS_outcome found start goal walls fences Q with ⟨h, -⟩ | ⟨path, h, -, hp⟩
  · exact ⟨[], h, fun hne => absurd rfl hne⟩
  · exact ⟨path, h, fun _ => ⟨hp.head, hp.last⟩⟩

/-- C3. Every two consecutive cells of the sequence returned by `FindPathBFS` are
king-move neighbours: distinct, and at most one apart in `x` and in `y`.  This
holds whatever the searches of the destroyed vector find. -/
theorem FindPathBFS_king_moves (found : Position → List Position → Position → Bool)
    (start goal : Position) (walls : List Wall)
    (fences : List Fence) (Q : PriorityQueue (cmp goal)) :
    ∃ path, FindPathBFS found start goal walls fences Q = some path ∧
      path.Chain' kingAdjacent := by
  rcases FindPathBFS_outcome found start goal walls fences Q with ⟨h, -⟩ | ⟨path, h, -, hp⟩
  · exact ⟨[], h, List.chain'_nil⟩
  · exact ⟨path, h, hp.chain.imp fun _ _ hab => kingAdjacent_of_stepFrom hab⟩

/-- C4, on the code.  The obstacle test searches the vector `obstacles` after its
destruction.  Whenever the first two collected entries are no longer found, the
search from (0,0) to (0,2) across row 1 filled with walls returns, for every
priority queue, a sequence with a cell other than the start cell on a wall: at
(0,0) the collected walls are (0,1) and (1,1), both lost, so the wall cells are
pushed, and every king-move chain from (0,0) to (0,2) holds a cell of row 1. -/
theorem FindPathBFS_through_wall (found : Position → List Position → Position → Bool)
    (hfound : LosesFirstTwo found) (Q : PriorityQueue (cmp ⟨0, 2⟩)) :
    ∃ path, FindPathBFS found ⟨0, 0⟩ ⟨0, 2⟩ (rowWalls 1) [] Q = some path ∧
      ∃ c ∈ path, c ≠ (⟨0, 0⟩ : Position) ∧ occupied (rowWalls 1) [] c := by
  obtain ⟨path, h, -, hc⟩ := FindPathBFS_row hfound Q
  exact ⟨path, h, hc⟩

/-- C4 at a concrete read and queue: the first two entries lost and the others
read back, the list-backed queue. -/
theorem FindPathBFS_through_wall_witness :
    LosesFirstTwo freedFound ∧
      ∃ path, FindPathBFS freedFound ⟨0, 0⟩ ⟨0, 2⟩ (rowWalls 1) [] (refQueue ⟨0, 2⟩) =
          some path ∧
        ∃ c ∈ path, c ≠ (⟨0, 0⟩ : Position) ∧ occupied (rowWalls 1) [] c :=
  ⟨freedFound_losesFirstTwo,
    FindPathBFS_through_wall freedFound freedFound_losesFirstTwo (refQueue ⟨0, 2⟩)⟩

/-- C5, as stated, fails.  In the scenario of the claim (start (0,0), goal (2,2),
one wall on (1,1)) the result holds a cell other than start and goal within
Manhattan distance 2 of the wall, for every priority queue, when the first two
entries of the destroyed vector are lost, and more generally whenever the
search of the destroyed vector finds only collected positions: the result is
not empty, and the cell that precedes `start` in it is a king-move neighbour of
(0,0), that is (0,1), (1,0) or (1,1). -/
theorem FindPathBFS_clearance_counterexample :
    (∀ Q : PriorityQueue (cmp ⟨2, 2⟩),
      ∃ path, FindPathBFS freedFound ⟨0, 0⟩ ⟨2, 2⟩ [⟨⟨1, 1⟩⟩] [] Q = some path ∧
        ∃ c ∈ path, c ≠ (⟨0, 0⟩ : Position) ∧ c ≠ (⟨2, 2⟩ : Position) ∧
          ManhattanDistance c ⟨1, 1⟩ ≤ 2) ∧
    (∀ found : Position → List Position → Position → Bool, Lossy found →
      ∀ Q : PriorityQueue (cmp ⟨2, 2⟩),
        ∃ path, FindPathBFS found ⟨0, 0⟩ ⟨2, 2⟩ [⟨⟨1, 1⟩⟩] [] Q = some path ∧
          ∃ c ∈ path, c ≠ (⟨0, 0⟩ : Position) ∧ c ≠ (⟨2, 2⟩ : Position) ∧
            ManhattanDistance c ⟨1, 1⟩ ≤ 2) ∧
    occupied [⟨⟨1, 1⟩⟩] [] ⟨1, 1⟩ :=
  ⟨fun Q => FindPathBFS_single_wall_found freedFound_losesFirstTwo.lossy Q,
    fun _ hl Q => FindPathBFS_single_wall_found hl Q, by decide⟩

/-- C5, amended.  No clearance radius is kept.  For every input, whatever the
searches of the destroyed vector find, the returned sequence is a chain of king
moves whose cells other than the start cell lie in the grid; nothing bounds
their Manhattan distance to the walls and fences from below.  In particular, for
start (0,0), goal (2,2) and a single wall on (1,1) the result is either empty or
contains (0,1), (1,0) or (1,1), a cell other than start and goal within
Manhattan distance 2 of (1,1). -/
theorem FindPathBFS_no_clearance :
    (∀ (found : Position → List Position → Position → Bool) (start goal : Position)
        (walls : List Wall) (fences : List Fence) (Q : PriorityQueue (cmp goal)),
      ∃ path, FindPathBFS found start goal walls fences Q = some path ∧
        path.Chain' kingAdjacent ∧ ∀ c ∈ path, c ≠ start → inBounds c) ∧
    (∀ (found : Position → List Position → Position → Bool)
        (Q : PriorityQueue (cmp ⟨2, 2⟩)),
      ∃ path, FindPathBFS found ⟨0, 0⟩ ⟨2, 2⟩ [⟨⟨1, 1⟩⟩] [] Q = some path ∧
        (path = [] ∨
          (((⟨0, 1⟩ : Position) ∈ path ∨ (⟨1, 0⟩ : Position) ∈ path ∨
              (⟨1, 1⟩ : Position) ∈ path) ∧
            ∃ c ∈ path, c ≠ (⟨0, 0⟩ : Position) ∧ c ≠ (⟨2, 2⟩ : Position) ∧
              ManhattanDistance c ⟨1, 1⟩ ≤ 2))) := by
  constructor
  · intro found start goal walls fences Q
    obtain ⟨path, h, -, hchain, -, hin⟩ :=
      FindPathBFS_structure found start goal walls fences Q
    exact ⟨path, h, hchain, hin⟩
  · intro found Q
    obtain ⟨path, h, hcases⟩ := FindPathBFS_single_wall found Q
    refine ⟨path, h, ?_⟩
    rcases hcases with hnil | hc | hc | hc
    · exact Or.inl hnil
    · exact Or.inr ⟨Or.inl hc, _, hc, by decide, by decide, by decide⟩
    · exact Or.inr ⟨Or.inr (Or.inl hc), _, hc, by decide, by decide, by decide⟩
    · exact Or.inr ⟨Or.inr (Or.inr hc), _, hc, by decide, by decide, by decide⟩

/-- C6, as stated, fails for a start outside the grid, whatever the priority
queue: the search from (-1,-1) to (-1,-1) returns that cell, and with a wall on
(0,1) the search from (-1,0) to (0,0) returns (0,0), (-1,0) whenever the
search of the destroyed vector invents no entry. -/
theorem FindPathBFS_bounds_counterexample :
    ((∀ (found : Position → List Position → Position → Bool)
          (Q : PriorityQueue (cmp ⟨-1, -1⟩)),
        FindPathBFS found ⟨-1, -1⟩ ⟨-1, -1⟩ [] [] Q = some [⟨-1, -1⟩]) ∧
      ¬ inBounds ⟨-1, -1⟩) ∧
    ((∀ (found : Position → List Position → Position → Bool), Lossy found →
          ∀ Q : PriorityQueue (cmp ⟨0, 0⟩),
        FindPathBFS found ⟨-1, 0⟩ ⟨0, 0⟩ [⟨⟨0, 1⟩⟩] [] Q = some [⟨0, 0⟩, ⟨-1, 0⟩]) ∧
      ¬ inBounds ⟨-1, 0⟩) := by
  refine ⟨⟨fun found Q => FindPathBFS_self _ [] [] Q (by decide), by decide⟩,
    fun found hl Q => ?_, by decide⟩
  exact FindPathBFS_adjacent found ⟨-1, 0⟩ ⟨0, 0⟩ [⟨⟨0, 1⟩⟩] [] Q (by decide) (by decide)
    (mem_GetNeighbors_of_free hl (by decide) (by decide) (by decide))

/-- C6, amended.  Every cell of the sequence returned by `FindPathBFS` other than
the start cell lies in the grid, `0 <= x < 100` and `0 <= y < 100`; when the
start cell lies in the grid, every cell of the sequence does.  This holds
whatever the searches of the destroyed vector find. -/
theorem FindPathBFS_bounds_except_start
    (found : Position → List Position → Position → Bool) (start goal : Position)
    (walls : List Wall) (fences : List Fence) (Q : PriorityQueue (cmp goal)) :
    ∃ path, FindPathBFS found start goal walls fences Q = some path ∧
      (∀ c ∈ path, c ≠ start →
        0 ≤ c.x ∧ c.x < 100 ∧ 0 ≤ c.y ∧ c.y < 100) ∧
      (inBounds start → ∀ c ∈ path, inBounds c) := by
  rcases FindPathBFS_outcome found start goal walls fences Q with ⟨h, -⟩ | ⟨path, h, -, hp⟩
  · exact ⟨[], h, fun c hc => by simp at hc, fun _ c hc => by simp at hc⟩
  · refine ⟨path, h, fun c hc hne => hp.generated c hc hne, fun hs c hc => ?_⟩
    by_cases hcs : c = start
    · rw [hcs]; exact hs
    · exact hp.generated c hc hcs

/-- C7. For every cell `p`, the search from `p` to `p` without walls and fences
returns exactly the one-element sequence `[p]`. -/
theorem FindPathBFS_same_cell (found : Position → List Position → Position → Bool)
    (p : Position) (Q : PriorityQueue (cmp p)) :
    FindPathBFS found p p [] [] Q = some [p] :=
  FindPathBFS_self p [] [] Q (by simp [occupied])

/-- C8, on the code.  Column 1 is filled with fences, so no chain of king moves
through free cells of the grid leads from (0,0) to (2,0), and the goal (2,0) is
free.  Whenever the first two collected entries of the destroyed vector are no
longer found, the search nevertheless returns a non-empty sequence, for every
priority queue. -/
theorem FindPathBFS_finds_blocked_goal
    (found : Position → List Position → Position → Bool)
    (hfound : LosesFirstTwo found) (Q : PriorityQueue (cmp ⟨2, 0⟩)) :
    ¬ occupied [] (columnFences 1) ⟨2, 0⟩ ∧
    (¬ ∃ chain : List Position,
        chain.head? = some ⟨0, 0⟩ ∧ chain.getLast? = some ⟨2, 0⟩ ∧
        chain.Chain' kingAdjacent ∧
        ∀ c ∈ chain.tail, inBounds c ∧ ¬ occupied [] (columnFences 1) c) ∧
    ∃ path, FindPathBFS found ⟨0, 0⟩ ⟨2, 0⟩ [] (columnFences 1) Q = some path ∧
      path ≠ [] := by
  refine ⟨by decide, fun ⟨chain, hroute⟩ => no_route_across_column chain hroute, ?_⟩
  obtain ⟨path, h, hne, -⟩ := FindPathBFS_column hfound Q
  exact ⟨path, h, hne⟩

/-- C8 at a concrete read and queue: the first two entries lost and the others
read back, the list-backed queue. -/
theorem FindPathBFS_finds_blocked_goal_witness :
    LosesFirstTwo freedFound ∧
    ¬ occupied [] (columnFences 1) ⟨2, 0⟩ ∧
    (¬ ∃ chain : List Position,
        chain.head? = some ⟨0, 0⟩ ∧ chain.getLast? = some ⟨2, 0⟩ ∧
        chain.Chain' kingAdjacent ∧
        ∀ c ∈ chain.tail, inBounds c ∧ ¬ occupied [] (columnFences 1) c) ∧
    ∃ path, FindPathBFS freedFound ⟨0, 0⟩ ⟨2, 0⟩ [] (columnFences 1) (refQueue ⟨2, 0⟩) =
        some path ∧ path ≠ [] :=
  ⟨freedFound_losesFirstTwo,
    FindPathBFS_finds_blocked_goal freedFound freedFound_losesFirstTwo (refQueue ⟨2, 0⟩)⟩

/-- C9, on the code.  Row 1 is filled with walls between the free cells (0,0) and
(0,2) of the grid, and column 1 is filled with fences between the free cells
(0,0) and (2,0).  Whenever the first two collected entries of the destroyed
vector are no longer found, both searches return a non-empty sequence, for
every priority queue: a path across the full row, and a path across the full
column. -/
theorem FindPathBFS_crosses_separating_wall
    (found : Position → List Position → Position → Bool) (hfound : LosesFirstTwo found) :
    ((∀ x : Int, 0 ≤ x → x < kMapSize → occupied (rowWalls 1) [] ⟨x, 1⟩) ∧
      (inBounds ⟨0, 0⟩ ∧ ¬ occupied (rowWalls 1) [] ⟨0, 0⟩) ∧
      (inBounds ⟨0, 2⟩ ∧ ¬ occupied (rowWalls 1) [] ⟨0, 2⟩) ∧
      ∀ Q : PriorityQueue (cmp ⟨0, 2⟩),
        ∃ path, FindPathBFS found ⟨0, 0⟩ ⟨0, 2⟩ (rowWalls 1) [] Q = some path ∧
          path ≠ []) ∧
    ((∀ y : Int, 0 ≤ y → y < kMapSize → occupied [] (columnFences 1) ⟨1, y⟩) ∧
      (inBounds ⟨0, 0⟩ ∧ ¬ occupied [] (columnFences 1) ⟨0, 0⟩) ∧
      (inBounds ⟨2, 0⟩ ∧ ¬ occupied [] (columnFences 1) ⟨2, 0⟩) ∧
      ∀ Q : PriorityQueue (cmp ⟨2, 0⟩),
        ∃ path, FindPathBFS found ⟨0, 0⟩ ⟨2, 0⟩ [] (columnFences 1) Q = some path ∧
          path ≠ []) := by
  refine ⟨⟨fun x h0 h1 => occupied_rowWalls 1 x h0 h1, by decide, by decide, fun Q => ?_⟩,
    ⟨fun y h0 h1 => occupied_columnFences 1 y h0 h1, by decide, by decide, fun Q => ?_⟩⟩
  · obtain ⟨path, h, hne, -⟩ := FindPathBFS_row hfound Q
    exact ⟨path, h, hne⟩
  · obtain ⟨path, h, hne, -⟩ := FindPathBFS_column hfound Q
    exact ⟨path, h, hne⟩

/-- C9 at a concrete read: the first two entries lost and the others read back. -/
theorem FindPathBFS_crosses_separating_wall_witness :
    LosesFirstTwo freedFound ∧
    (∃ path, FindPathBFS freedFound ⟨0, 0⟩ ⟨0, 2⟩ (rowWalls 1) [] (refQueue ⟨0, 2⟩) =
        some path ∧ path ≠ []) ∧
    (∃ path, FindPathBFS freedFound ⟨0, 0⟩ ⟨2, 0⟩ [] (columnFences 1) (refQueue ⟨2, 0⟩) =
        some path ∧ path ≠ []) :=
  ⟨freedFound_losesFirstTwo,
    (FindPathBFS_crosses_separating_wall freedFound freedFound_losesFirstTwo).1.2.2.2
      (refQueue ⟨0, 2⟩),
    (FindPathBFS_crosses_separating_wall freedFound freedFound_losesFirstTwo).2.2.2.2
      (refQueue ⟨2, 0⟩)⟩

/-- C10, on the code.  `cornerWalls` and `cornerWallsRelisted` occupy the same
three cells.  Whenever the first two collected entries of the destroyed vector
are no longer found while, at (0,0) for the second list, the entries after them
still are, the search from (0,0) to (0,2) returns the empty sequence for the
second list, where the entries lost at (0,0) are two copies of (1,1), and a
non-empty sequence for the first, where (0,1) and (1,0) are lost, for every
priority queue. -/
theorem FindPathBFS_depends_on_listing
    (found : Position → List Position → Position → Bool) (hlost : LosesFirstTwo found)
    (hkept : ∀ n ∈ (collectObstacles ⟨0, 0⟩ cornerWallsRelisted []).drop 2,
      found ⟨0, 0⟩ (collectObstacles ⟨0, 0⟩ cornerWallsRelisted []) n = true)
    (Q : PriorityQueue (cmp ⟨0, 2⟩)) :
    (∀ p, occupied cornerWalls [] p ↔ occupied cornerWallsRelisted [] p) ∧
    FindPathBFS found ⟨0, 0⟩ ⟨0, 2⟩ cornerWallsRelisted [] Q = some [] ∧
    ∃ path, FindPathBFS found ⟨0, 0⟩ ⟨0, 2⟩ cornerWalls [] Q = some path ∧ path ≠ [] := by
  refine ⟨occupied_cornerWalls, FindPathBFS_cornerWallsRelisted hkept Q, ?_⟩
  obtain ⟨path, h, hne, -⟩ := FindPathBFS_cornerWalls hlost Q
  exact ⟨path, h, hne⟩

/-- C10 at a concrete read and queue: the first two entries lost and the others
read back, the list-backed queue. -/
theorem FindPathBFS_depends_on_listing_witness :
    LosesFirstTwo freedFound ∧
    (∀ n ∈ (collectObstacles ⟨0, 0⟩ cornerWallsRelisted []).drop 2,
      freedFound ⟨0, 0⟩ (collectObstacles ⟨0, 0⟩ cornerWallsRelisted []) n = true) ∧
    (∀ p, occupied cornerWalls [] p ↔ occupied cornerWallsRelisted [] p) ∧
    FindPathBFS freedFound ⟨0, 0⟩ ⟨0, 2⟩ cornerWallsRelisted [] (refQueue ⟨0, 2⟩) = some [] ∧
    ∃ path, FindPathBFS freedFound ⟨0, 0⟩ ⟨0, 2⟩ cornerWalls [] (refQueue ⟨0, 2⟩) =
      some path ∧ path ≠ [] :=
  ⟨freedFound_losesFirstTwo, by decide,
    FindPathBFS_depends_on_listing freedFound freedFound_losesFirstTwo (by decide)
      (refQueue ⟨0, 2⟩)⟩

/-- C11, on the code.  In the search from (0,0) to (2,2) without walls and fences
the frontier serves the cell farthest from the goal first, so the route depends
on which of several equally distant cells the priority queue serves.  Whenever
the search of the empty vector finds nothing, the result is for every priority
queue a path from (2,2) to (0,0) of at least 3 cells; for the queue `tieQueue`,
which serves the greatest `y` among the farthest cells, it has more than 3
cells, so it is not the diagonal route. -/
theorem FindPathBFS_open_field_route
    (found : Position → List Position → Position → Bool) (hfound : Lossy found) :
    (∀ Q : PriorityQueue (cmp ⟨2, 2⟩),
      ∃ path, FindPathBFS found ⟨0, 0⟩ ⟨2, 2⟩ [] [] Q = some path ∧
        path.head? = some ⟨2, 2⟩ ∧ path.getLast? = some ⟨0, 0⟩ ∧ 3 ≤ path.length) ∧
    (∃ path, FindPathBFS found ⟨0, 0⟩ ⟨2, 2⟩ [] [] (tieQueue ⟨2, 2⟩) = some path ∧
      3 < path.length ∧ path ≠ [⟨2, 2⟩, ⟨1, 1⟩, ⟨0, 0⟩]) := by
  constructor
  · intro Q
    obtain ⟨path, h, hp, hlen⟩ := FindPathBFS_open_field hfound Q
    exact ⟨path, h, hp.head, hp.last, hlen⟩
  · obtain ⟨path, h, hlen⟩ := FindPathBFS_tieQueue hfound
    refine ⟨path, h, hlen, fun he => ?_⟩
    rw [he] at hlen
    simp at hlen

/-- C11 at concrete reads: the vector read back as collected, and read with its
first two entries lost. -/
theorem FindPathBFS_open_field_route_witness :
    (Lossy intactFound ∧
      ∃ path, FindPathBFS intactFound ⟨0, 0⟩ ⟨2, 2⟩ [] [] (tieQueue ⟨2, 2⟩) = some path ∧
        3 < path.length ∧ path ≠ [⟨2, 2⟩, ⟨1, 1⟩, ⟨0, 0⟩]) ∧
    (Lossy freedFound ∧
      ∃ path, FindPathBFS freedFound ⟨0, 0⟩ ⟨2, 2⟩ [] [] (tieQueue ⟨2, 2⟩) = some path ∧
        3 < path.length ∧ path ≠ [⟨2, 2⟩, ⟨1, 1⟩, ⟨0, 0⟩]) :=
  ⟨⟨intactFound_lossy, (FindPathBFS_open_field_route intactFound intactFound_lossy).2⟩,
    ⟨freedFound_losesFirstTwo.lossy,
      (FindPathBFS_open_field_route freedFound freedFound_losesFirstTwo.lossy).2⟩⟩

/-- C12. `FindPathBFS` terminates on every input, whatever the searches of the
destroyed vector find.  The main loop ends within
`searchFuel = 100 * 100 + 2` iterations: a marked neighbour is skipped, an
unmarked one is pushed and marked at once, so the marked cells are the pushed
cells, and in the final state they are pairwise distinct and, apart from
`start`, inside the grid.  From every marked cell, the goal of a successful
search among them, the walk along the parent links reaches `start` within
`visited.length` steps without meeting a cell twice. -/
theorem FindPathBFS_terminates (found : Position → List Position → Position → Bool)
    (start goal : Position) (walls : List Wall)
    (fences : List Fence) (Q : PriorityQueue (cmp goal)) :
    (∃ path, FindPathBFS found start goal walls fences Q = some path) ∧
    (∀ (current neighbor : Position) (st : SearchState Q.σ),
      (neighbor ∈ st.visited → visitNeighbor Q current st neighbor = st) ∧
      (neighbor ∉ st.visited →
        (visitNeighbor Q current st neighbor).frontier = Q.push st.frontier neighbor ∧
        (visitNeighbor Q current st neighbor).visited = neighbor :: st.visited)) ∧
    ∃ isFound st,
      searchLoop Q found goal walls fences searchFuel
        { frontier := Q.push Q.empty start, visited := [start], parents := [] } =
          some (isFound, st) ∧
      st.visited.Nodup ∧ (∀ c ∈ st.visited, c ≠ start → inBounds c) ∧
      st.visited.length ≤ 100 * 100 + 1 ∧
      (isFound = true → goal ∈ st.visited) ∧
      ∀ c ∈ st.visited, ∃ path,
        walkParents st.parents start st.visited.length c = some path ∧
          path.getLast? = some start ∧ path.Nodup := by
  refine ⟨FindPathBFS_total found start goal walls fences Q, ?_, ?_⟩
  · intro current neighbor st
    constructor
    · intro h; rw [visitNeighbor, if_pos h]
    · intro h; rw [visitNeighbor, if_neg h]; exact ⟨rfl, rfl⟩
  · obtain ⟨isFound, st, hloop, htree, hfound, -⟩ :=
      searchLoop_spec Q goal searchFuel _ (Inv.init Q found goal walls fences start) (by
        simp only [length_toList_push, Q.toList_empty, searchFuel_eq, List.length_cons,
          List.length_nil]
        omega)
    refine ⟨isFound, st, hloop, htree.nodup, ?_, ?_, hfound, ?_⟩
    · intro c hc hne
      rcases htree.mem_cases c hc with h | h
      · exact absurd h hne
      · exact h
    · exact htree.length_le
    · intro c hc
      obtain ⟨path, hwalk, hpath, -⟩ := htree.walk c hc
      exact ⟨path, hwalk, hpath.last, hpath.nodup⟩

/-- C13, on the code: the cell removed from the frontier is one FARTHEST from the
goal.  `std::priority_queue` serves a greatest element of its comparator, and
the comparator orders cells by increasing Manhattan distance to the goal, so
every pop returns a cell whose distance is at least that of every cell in the
frontier.  In the search from (0,0) to (2,2) without obstacles, when the search
of the empty vector finds nothing, the second iteration finds (0,1), (1,0),
(1,1) in the frontier and removes a cell at distance 3, although (1,1) at
distance 2 is closer to the goal. -/
theorem FindPathBFS_pops_farthest
    (found : Position → List Position → Position → Bool) (hfound : Lossy found) :
    (∀ (goal : Position) (Q : PriorityQueue (cmp goal)) (q q' : Q.σ) (x : Position),
      Q.pop q = some (x, q') →
        ∀ y ∈ Q.toList q, ManhattanDistance y goal ≤ ManhattanDistance x goal) ∧
    (∀ Q : PriorityQueue (cmp ⟨2, 2⟩),
      ∃ rest, Q.pop (Q.push Q.empty ⟨0, 0⟩) = some (⟨0, 0⟩, rest) ∧
        (⟨1, 1⟩ : Position) ∈ Q.toList (expand Q found [] [] ⟨0, 0⟩
            { frontier := rest, visited := [⟨0, 0⟩], parents := [] }).frontier ∧
        ∃ x q', Q.pop (expand Q found [] [] ⟨0, 0⟩
            { frontier := rest, visited := [⟨0, 0⟩], parents := [] }).frontier =
              some (x, q') ∧
          ManhattanDistance x ⟨2, 2⟩ = 3 ∧ ManhattanDistance ⟨1, 1⟩ ⟨2, 2⟩ = 2) := by
  refine ⟨fun goal Q q q' x hpop => pop_farthest Q hpop, fun Q => ?_⟩
  obtain ⟨rest, hpop, hrest⟩ := pop_singleton Q ⟨0, 0⟩
  refine ⟨rest, hpop, ?_⟩
  have hnb : GetNeighbors found ⟨0, 0⟩ [] [] = [⟨0, 1⟩, ⟨1, 0⟩, ⟨1, 1⟩] := by
    rw [GetNeighbors_open hfound]
    decide
  have hfr : (expand Q found [] [] ⟨0, 0⟩
      { frontier := rest, visited := [⟨0, 0⟩], parents := [] }).frontier =
      Q.push (Q.push (Q.push rest ⟨0, 1⟩) ⟨1, 0⟩) ⟨1, 1⟩ := by
    rw [expand, hnb]
    simp [visitNeighbor]
  have hmem : ∀ c, c ∈ Q.toList (Q.push (Q.push (Q.push rest ⟨0, 1⟩) ⟨1, 0⟩) ⟨1, 1⟩) ↔
      c = ⟨1, 1⟩ ∨ c = ⟨1, 0⟩ ∨ c = ⟨0, 1⟩ := by
    intro c
    simp only [mem_toList_push, hrest, List.not_mem_nil, or_false]
  rw [hfr]
  refine ⟨(hmem _).mpr (Or.inl rfl), ?_⟩
  cases hpop2 : Q.pop (Q.push (Q.push (Q.push rest ⟨0, 1⟩) ⟨1, 0⟩) ⟨1, 1⟩) with
  | none =>
    have h1 := (Q.pop_none _).mp hpop2
    have h2 := (hmem ⟨1, 1⟩).mpr (Or.inl rfl)
    rw [h1] at h2
    simp at h2
  | some top =>
    obtain ⟨x, q'⟩ := top
    refine ⟨x, q', rfl, ?_, by decide⟩
    have hx : x ∈ Q.toList (Q.push (Q.push (Q.push rest ⟨0, 1⟩) ⟨1, 0⟩) ⟨1, 1⟩) :=
      (Q.pop_some _ _ _ hpop2).mem_iff.mpr (List.mem_cons_self _ _)
    have hfar := pop_farthest Q hpop2 ⟨0, 1⟩ ((hmem _).mpr (Or.inr (Or.inr rfl)))
    rcases (hmem x).mp hx with h | h | h
    · rw [h] at hfar; exact absurd hfar (by decide)
    · rw [h]; decide
    · rw [h]; decide

/-- C13 at a concrete read and queue: the first two entries lost and the others
read back, the list-backed queue. -/
theorem FindPathBFS_pops_farthest_witness :
    Lossy freedFound ∧
      ∃ rest, (refQueue ⟨2, 2⟩).pop ((refQueue ⟨2, 2⟩).push (refQueue ⟨2, 2⟩).empty ⟨0, 0⟩) =
          some (⟨0, 0⟩, rest) ∧
        (⟨1, 1⟩ : Position) ∈ (refQueue ⟨2, 2⟩).toList
          (expand (refQueue ⟨2, 2⟩) freedFound [] [] ⟨0, 0⟩
            { frontier := rest, visited := [⟨0, 0⟩], parents := [] }).frontier ∧
        ∃ x q', (refQueue ⟨2, 2⟩).pop (expand (refQueue ⟨2, 2⟩) freedFound [] [] ⟨0, 0⟩
            { frontier := rest, visited := [⟨0, 0⟩], parents := [] }).frontier =
              some (x, q') ∧
          ManhattanDistance x ⟨2, 2⟩ = 3 ∧ ManhattanDistance ⟨1, 1⟩ ⟨2, 2⟩ = 2 :=
  ⟨freedFound_losesFirstTwo.lossy,
    (FindPathBFS_pops_farthest freedFound freedFound_losesFirstTwo.lossy).2 (refQueue ⟨2, 2⟩)⟩

/-- C14, as stated, fails.  For `pos = (0,0)` and a single wall on (1,1) the view
yields (0,1), a king-move neighbour of (0,0) inside the grid with the wall at
Manhattan distance 1, whenever the search of the destroyed vector finds only
collected positions; when the first two collected entries are lost it yields
(0,1), (1,0) and the wall cell (1,1) itself. -/
theorem GetNeighbors_clearance_counterexample :
    (∀ found : Position → List Position → Position → Bool, Lossy found →
      (⟨0, 1⟩ : Position) ∈ GetNeighbors found ⟨0, 0⟩ [⟨⟨1, 1⟩⟩] []) ∧
    GetNeighbors freedFound ⟨0, 0⟩ [⟨⟨1, 1⟩⟩] [] = [⟨0, 1⟩, ⟨1, 0⟩, ⟨1, 1⟩] ∧
    kingAdjacent ⟨0, 0⟩ ⟨0, 1⟩ ∧ inBounds ⟨0, 1⟩ ∧
    occupied [⟨⟨1, 1⟩⟩] [] ⟨1, 1⟩ ∧ ManhattanDistance ⟨0, 1⟩ ⟨1, 1⟩ ≤ 2 := by
  refine ⟨fun found hl => ?_, by decide, by decide, by decide, by decide, by decide⟩
  exact mem_GetNeighbors_of_free hl (by decide) (by decide) (by decide)

/-- C14, amended.  `GetNeighbors(pos, walls, fences)` yields, in the order of the
array literal, exactly those of the 8 king-move neighbours `n` of `pos` that
are inside `[0,100) x [0,100)` and that the search of `obstacles` does not
find, where `obstacles` holds the positions of the walls and fences within
Manhattan distance `<= 2` of `pos`: the distance test is applied to `pos`, and
`n` is compared with the collected positions for equality.  What the search
finds once `obstacles` is destroyed is left open; when it finds only collected
positions, every candidate `n` that is not itself the position of a wall or
fence is yielded, whatever lies within Manhattan distance 2 of it. -/
theorem GetNeighbors_characterisation
    (found : Position → List Position → Position → Bool) (pos : Position)
    (walls : List Wall) (fences : List Fence) :
    (GetNeighbors found pos walls fences).Sublist
      [⟨pos.x - 1, pos.y - 1⟩, ⟨pos.x - 1, pos.y⟩, ⟨pos.x - 1, pos.y + 1⟩,
       ⟨pos.x, pos.y - 1⟩, ⟨pos.x, pos.y + 1⟩,
       ⟨pos.x + 1, pos.y - 1⟩, ⟨pos.x + 1, pos.y⟩, ⟨pos.x + 1, pos.y + 1⟩] ∧
    (∀ n, n ∈ GetNeighbors found pos walls fences ↔
      kingAdjacent pos n ∧ (0 ≤ n.x ∧ n.x < 100 ∧ 0 ≤ n.y ∧ n.y < 100) ∧
        found pos (collectObstacles pos walls fences) n = false) ∧
    (∀ o, o ∈ collectObstacles pos walls fences ↔
      ManhattanDistance pos o ≤ 2 ∧ occupied walls fences o) ∧
    ((∀ p obstacles n, found p obstacles n = true → n ∈ obstacles) →
      ∀ n, kingAdjacent pos n → (0 ≤ n.x ∧ n.x < 100 ∧ 0 ≤ n.y ∧ n.y < 100) →
        ¬ occupied walls fences n → n ∈ GetNeighbors found pos walls fences) := by
  refine ⟨?_, fun n => mem_GetNeighbors found pos n walls fences,
    fun o => mem_collectObstacles pos walls fences o,
    fun hl _ hk hb hfree => mem_GetNeighbors_of_free hl hk hb hfree⟩
  rw [GetNeighbors]
  exact (List.filter_sublist _).trans (List.filter_sublist _)

/-- C15, on the code.  The view is iterated after the vector `obstacles` is
destroyed, so what it yields is not exact-cell occupancy.  For `pos = (0,0)` and
a single wall on (1,1), exact-cell generation gives (0,1), (1,0); the view, read
with the first two collected entries lost, yields (0,1), (1,0) and the wall cell
(1,1).  Whenever the first two collected entries are no longer found and at
most two were collected, every king-move neighbour in the grid is yielded, the
occupied ones included. -/
theorem GetNeighbors_yields_occupied :
    GetNeighborsExact ⟨0, 0⟩ [⟨⟨1, 1⟩⟩] [] = [⟨0, 1⟩, ⟨1, 0⟩] ∧
    GetNeighbors freedFound ⟨0, 0⟩ [⟨⟨1, 1⟩⟩] [] = [⟨0, 1⟩, ⟨1, 0⟩, ⟨1, 1⟩] ∧
    occupied [⟨⟨1, 1⟩⟩] [] ⟨1, 1⟩ ∧
    (∀ (found : Position → List Position → Position → Bool), LosesFirstTwo found →
      ∀ (pos n : Position) (walls : List Wall) (fences : List Fence),
        (collectObstacles pos walls fences).length ≤ 2 → kingAdjacent pos n → inBounds n →
          n ∈ GetNeighbors found pos walls fences) := by
  refine ⟨by decide, by decide, by decide,
    fun found h2 pos n walls fences hlen hk hb => ?_⟩
  exact mem_GetNeighbors_of_lost h2 hk hb (List.drop_eq_nil_of_le hlen)

/-- C16. Every cell of the sequence returned by `FindPathBFS` except its last
element, the start cell, lies inside `[0,100) x [0,100)`; so when `start` is in
bounds every cell of the sequence is, and a goal outside the grid that differs
from `start` yields the empty sequence.  This holds whatever the searches of the
destroyed vector find. -/
theorem FindPathBFS_bounds_before_start
    (found : Position → List Position → Position → Bool) (start goal : Position)
    (walls : List Wall) (fences : List Fence) (Q : PriorityQueue (cmp goal)) :
    ∃ path, FindPathBFS found start goal walls fences Q = some path ∧
      (goal ≠ start → ∀ c ∈ path.dropLast, inBounds c) ∧
      (inBounds start → ∀ c ∈ path, inBounds c) ∧
      (¬ inBounds goal → goal ≠ start → path = []) := by
  rcases FindPathBFS_outcome found start goal walls fences Q with ⟨h, -⟩ | ⟨path, h, -, hp⟩
  · exact ⟨[], h, fun _ c hc => by simp at hc, fun _ c hc => by simp at hc, fun _ _ => rfl⟩
  · refine ⟨path, h, fun _ c hc => ?_, fun hs c hc => ?_, fun hout hne => ?_⟩
    · exact hp.generated c (List.mem_of_mem_dropLast hc)
        (nodup_dropLast_ne path hp.nodup hp.last c hc)
    · by_cases hcs : c = start
      · rw [hcs]; exact hs
      · exact hp.generated c hc hcs
    · exact absurd (hp.generated goal (List.mem_of_mem_head? hp.head) hne) hout

/-- C17. The cells of the sequence returned by `FindPathBFS` are pairwise
distinct, whatever the searches of the destroyed vector find. -/
theorem FindPathBFS_simple_path (found : Position → List Position → Position → Bool)
    (start goal : Position) (walls : List Wall)
    (fences : List Fence) (Q : PriorityQueue (cmp goal)) :
    ∃ path, FindPathBFS found start goal walls fences Q = some path ∧ path.Nodup := by
  rcases FindPathBFS_outcome found start goal walls fences Q with ⟨h, -⟩ | ⟨path, h, -, hp⟩
  · exact ⟨[], h, List.nodup_nil⟩
  · exact ⟨path, h, hp.nodup⟩

end PathFinding
